import Mathlib

/-!
Shallow embedding of the training scheduler (`Trainer`) of the GPTwm
repository (`src/twm/trainer.py`).

The embedding models the control flow of `Trainer.__init__`, `Trainer.run`,
`Trainer._pretrain` and `Trainer._evaluate` over an explicit state.  Machine
arithmetic on budgets and the fractional step counter is Python float
arithmetic in the source; it is modelled with exact rationals.  The replay
buffer lives outside this repository's sources; per the scheduler's contract
(and the claims' own assumptions) each `replay_buffer.step` call appends one
transition, so the buffer is represented by its `size`.  While loops are
modelled with explicit fuel (`none` models non-termination of the source
loop), and every externally visible call (`optimize*`, `sync_target`,
`_evaluate`, `torch.save`, environment steps) is recorded in an event trace.
-/

namespace TWM

/-- The configuration fields of `trainer.py` that the scheduler reads.
`capacity` is the replay buffer's fixed capacity (owned by the external
`ReplayBuffer`, derived from the sample budget). -/
structure Config where
  buffer_prefill : Int
  pretrain_obs_p : ℚ
  pretrain_dyn_p : ℚ
  budget : ℚ
  pretrain_budget : ℚ
  wm_train_steps : ℕ
  wm_batch_size : ℕ
  wm_sequence_length : ℕ
  ac_batch_size : ℕ
  ac_horizon : ℕ
  eval_every : Int
  save_every : Int
  save : Bool
  capacity : ℕ
  deriving DecidableEq

/-- Events recorded by the scheduler model, in program order. -/
inductive Ev where
  | prefillStep
  | bufMetrics (size : ℕ)
  | obsOpt (n : ℕ)
  | dynOpt (n : ℕ)
  | acOpt (n : ℕ)
  | sync
  | evalEv (isFinal : Bool)
  | collectStep
  | trainRound
  | saveEv (name : String) (size : ℕ) (lastEval : ℕ)
  deriving DecidableEq

/-- Scheduler state: replay-buffer size, `self.last_eval`, the fractional
`step_counter`, ghost counters for environment steps (`envSteps` across all
phases, `mainSteps` in the main loop only) and training rounds, plus the
event trace. -/
structure RunState where
  size : ℕ
  lastEval : ℕ
  counter : ℚ
  mainSteps : ℕ
  rounds : ℕ
  envSteps : ℕ
  trace : List Ev
  deriving DecidableEq

def initState : RunState := ⟨0, 0, 0, 0, 0, 0, []⟩

def pushEv (e : Ev) (s : RunState) : RunState := { s with trace := s.trace ++ [e] }

/-- Modelled from the spec: `replay_buffer.step` (the Replay Store lives
outside this repository's sources); per the spec's append contract each step
appends exactly one transition, incrementing `size`. -/
def envStepPrefill (s : RunState) : RunState :=
  { s with size := s.size + 1, envSteps := s.envSteps + 1,
           trace := s.trace ++ [Ev.prefillStep] }

/-- Modelled from the spec: recording `replay_buffer.metrics()` (external,
read-only, no side effects) into the summarizer. -/
def recordBufMetrics (s : RunState) : RunState :=
  { s with trace := s.trace ++ [Ev.bufMetrics s.size] }

/-- Modelled from the spec: `replay_buffer.step(collect_policy)` in the main
loop (one appended transition), followed by `step_counter += 1`. -/
def envStepMain (s : RunState) : RunState :=
  { s with size := s.size + 1, envSteps := s.envSteps + 1,
           mainSteps := s.mainSteps + 1, counter := s.counter + 1,
           trace := s.trace ++ [Ev.collectStep] }

/-- Call of `self._evaluate(is_final=b)`: emits an evaluation and sets
`self.last_eval = replay_buffer.size` (last line of `_evaluate`). -/
def evalMark (b : Bool) (s : RunState) : RunState :=
  { s with lastEval := s.size, trace := s.trace ++ [Ev.evalEv b] }

/-- One training round of the main loop: `step_counter -= train_every`
followed by `self._train_step()`. -/
def trainRoundStep (te : ℚ) (s : RunState) : RunState :=
  { s with counter := s.counter - te, rounds := s.rounds + 1,
           trace := s.trace ++ [Ev.trainRound] }

def obsOptMark (n : ℕ) (s : RunState) : RunState := pushEv (Ev.obsOpt n) s
def syncMark (s : RunState) : RunState := pushEv Ev.sync s

/-- Checkpoint write (`torch.save`) of the mapping
`\x7b'config': dict(config), 'state_dict': ..., 'size': replay_buffer.size\x7d`
under `name`; the recorded `lastEval` is the value of `self.last_eval` at
write time. -/
def saveCkpt (name : String) (s : RunState) : RunState :=
  { s with trace := s.trace ++ [Ev.saveEv name s.size s.lastEval] }

/-- The two `raise ValueError()` checks of `Trainer.__init__`. -/
def initCheck (cfg : Config) : Except String Unit :=
  if cfg.buffer_prefill ≤ 0 then .error "ValueError" else
  if 1 < cfg.pretrain_obs_p + cfg.pretrain_dyn_p then .error "ValueError" else
  .ok ()

def prefillNat (cfg : Config) : ℕ := cfg.buffer_prefill.toNat

/-- Product `wm_batch_size * wm_sequence_length`, the mini-batch sample count of the
observation pretraining sweep. -/
def wmTotalBatch (cfg : Config) : ℕ := cfg.wm_batch_size * cfg.wm_sequence_length

/-- Quantity `budget_per_step` computed in `Trainer.run` before the main loop. -/
def budgetPerStep (cfg : Config) : ℚ :=
  cfg.wm_train_steps * cfg.wm_batch_size * cfg.wm_sequence_length
    + cfg.ac_batch_size * cfg.ac_horizon

/-- Quantity `num_batches = (budget - pretrain_budget) / budget_per_step`. -/
def numBatches (cfg : Config) : ℚ :=
  (cfg.budget - cfg.pretrain_budget) / budgetPerStep cfg

/-- Quantity `train_every = (capacity - buffer_prefill) / num_batches`. -/
def trainEvery (cfg : Config) : ℚ :=
  ((cfg.capacity : ℚ) - (cfg.buffer_prefill : ℚ)) / numBatches cfg

/-- The budget arithmetic of `Trainer.run` between pretraining and the main
loop.  Python raises `ZeroDivisionError` exactly when a divisor is zero;
there is no other validation of the computed values. -/
def preLoopCheck (cfg : Config) : Except String (ℚ × ℚ) :=
  if budgetPerStep cfg = 0 then .error "ZeroDivisionError" else
  if numBatches cfg = 0 then .error "ZeroDivisionError" else
  .ok (numBatches cfg, trainEvery cfg)

/-- The three pretraining sample budgets, as computed in `Trainer._pretrain`.
Note the source computes the actor-critic budget with
`1 - pretrain_obs_p + pretrain_dyn_p` (a plus sign). -/
def obsPretrainBudget (cfg : Config) : ℚ := cfg.pretrain_budget * cfg.pretrain_obs_p
def dynPretrainBudget (cfg : Config) : ℚ := cfg.pretrain_budget * cfg.pretrain_dyn_p
def acPretrainBudget (cfg : Config) : ℚ :=
  cfg.pretrain_budget * (1 - cfg.pretrain_obs_p + cfg.pretrain_dyn_p)

/-- The prefill loop of `Trainer.run`: `range(buffer_prefill - 1)` iterations
of step-then-record, plus the final step-then-record. -/
def prefillGo : ℕ → RunState → RunState
  | 0, s => s
  | n + 1, s => prefillGo n (recordBufMetrics (envStepPrefill s))

def prefillPhase (cfg : Config) (s : RunState) : RunState :=
  prefillGo (prefillNat cfg) s

/-- The observation pretraining loop: outer `while budget > 0` draws a fresh
`randperm(size)` (`rem := size`), the inner loop consumes chunks of at most
`B = wm_total_batch_size` indices, decrementing the budget by the chunk size
after each `optimize_pretrain_obs` call.  `rem` is the number of indices left
in the current permutation; fuel exhaustion (`none`) models the source loop
not terminating (e.g. `size = 0`). -/
def obsGo (size B : ℕ) : ℕ → ℕ → ℚ → RunState → Option RunState
  | 0, _, _, _ => none
  | f + 1, rem, b, s =>
    if b ≤ 0 then some s
    else if rem = 0 then obsGo size B f size b s
    else obsGo size B f (rem - min B rem) (b - (min B rem : ℕ)) (obsOptMark (min B rem) s)

/-- Modelled from the spec: one pass of a
`for idx in replay_buffer.generate_uniform_indices(...)` loop
(`generate_uniform_indices` lives outside this repository's sources; its
batch sample counts are abstracted as the list `sweep`): consumes the batch sample counts in `sweep` in order, emitting one
optimize event (`mk n`) and decrementing the budget by `n` per batch,
breaking out as soon as the budget drops to `0` or below. -/
def sweepOnce (mk : ℕ → Ev) : List ℕ → ℚ → RunState → ℚ × RunState
  | [], b, s => (b, s)
  | n :: rest, b, s =>
    if b - (n : ℚ) ≤ 0 then (b - (n : ℚ), pushEv (mk n) s)
    else sweepOnce mk rest (b - (n : ℚ)) (pushEv (mk n) s)

/-- Outer `while budget > 0` loop around `sweepOnce` (dynamics and
actor-critic pretraining).  Fuel exhaustion models non-termination (e.g. an
empty sweep). -/
def sweepLoop (mk : ℕ → Ev) (sweep : List ℕ) : ℕ → ℚ → RunState → Option RunState
  | 0, _, _ => none
  | f + 1, b, s =>
    if b ≤ 0 then some s
    else
      sweepLoop mk sweep f (sweepOnce mk sweep b s).1 (sweepOnce mk sweep b s).2

/-- Model of `Trainer._pretrain`: the observation sweep, the dynamics sweep, the
actor-critic sweep (with the source's `1 - obs_p + dyn_p` budget), then
exactly one `ac.sync_target()`.  The batch sample counts produced by the
external `replay_buffer.generate_uniform_indices` generator are the
parameters `dynSweep` and `acSweep` (sample counts after the `idx[:, :-2]`
trim). -/
def pretrainPhase (cfg : Config) (dynSweep acSweep : List ℕ) (fuel : ℕ)
    (s : RunState) : Option RunState :=
  match obsGo s.size (wmTotalBatch cfg) fuel 0 (obsPretrainBudget cfg) s with
  | none => none
  | some s1 =>
    match sweepLoop Ev.dynOpt dynSweep fuel (dynPretrainBudget cfg) s1 with
    | none => none
    | some s2 =>
      match sweepLoop Ev.acOpt acSweep fuel (acPretrainBudget cfg) s2 with
      | none => none
      | some s3 => some (syncMark s3)

/-- The collection loop body of the main loop:
`while step_counter <= train_every and size < capacity`, with the
mid-collection evaluation trigger checked before each environment step.
The structural fuel is bounded by `capacity - size` (each iteration grows
`size`), so `collectPhase` below is the exact while loop. -/
def collectGo (cfg : Config) (te : ℚ) : ℕ → RunState → RunState
  | 0, s => s
  | f + 1, s =>
    if s.counter ≤ te ∧ s.size < cfg.capacity then
      collectGo cfg te f
        (envStepMain
          (if cfg.eval_every ≤ (s.size : Int) - (s.lastEval : Int)
           then evalMark false s else s))
    else s

def collectPhase (cfg : Config) (te : ℚ) (s : RunState) : RunState :=
  collectGo cfg te (cfg.capacity - s.size) s

/-- The training loop of the main loop:
`while step_counter >= train_every: step_counter -= train_every; train`.
`none` models non-termination (which happens when `train_every <= 0`). -/
def trainGo (te : ℚ) : ℕ → RunState → Option RunState
  | 0, s => if te ≤ s.counter then none else some s
  | f + 1, s => if te ≤ s.counter then trainGo te f (trainRoundStep te s) else some s

/-- The post-training evaluation trigger of each outer-loop iteration. -/
def evalMaybe (cfg : Config) (s : RunState) : RunState :=
  if cfg.eval_every ≤ (s.size : Int) - (s.lastEval : Int) ∧ s.size < cfg.capacity
  then evalMark false s else s

/-- The periodic checkpoint trigger of each outer-loop iteration: requires
`config['save']`, `size - last_eval >= save_every` and `size < capacity`. -/
def saveMaybe (cfg : Config) (s : RunState) : RunState :=
  if cfg.save = true ∧ cfg.save_every ≤ (s.size : Int) - (s.lastEval : Int)
      ∧ s.size < cfg.capacity
  then saveCkpt "agent.pt" s else s

/-- The outer `while size < capacity` loop: collect, train, maybe evaluate,
maybe checkpoint.  `T` is the fuel for each training phase, `F` the fuel for
outer iterations. -/
def outerGo (cfg : Config) (te : ℚ) (T : ℕ) : ℕ → RunState → Option RunState
  | F, s =>
    if s.size < cfg.capacity then
      match F with
      | 0 => none
      | F + 1 =>
        match trainGo te T (collectPhase cfg te s) with
        | none => none
        | some s2 => outerGo cfg te T F (saveMaybe cfg (evalMaybe cfg s2))
    else some s

/-- Outcome of `Trainer.run`: fuel exhaustion models a source loop that does
not terminate; `raised` models an uncaught Python exception. -/
inductive RunOut where
  | diverged
  | raised (msg : String)
  | finished (s : RunState)
  deriving DecidableEq

/-- Model of `Trainer.run`: prefill, pretrain, one evaluation, budget arithmetic,
the main loop, the final evaluation, and the final checkpoint when saving
is enabled. -/
def runModel (cfg : Config) (dynSweep acSweep : List ℕ) (pfuel T F : ℕ) : RunOut :=
  match pretrainPhase cfg dynSweep acSweep pfuel (prefillPhase cfg initState) with
  | none => .diverged
  | some s2 =>
    let s3 := evalMark false s2
    match preLoopCheck cfg with
    | .error msg => .raised msg
    | .ok q =>
      match outerGo cfg q.2 T F { s3 with counter := 0 } with
      | none => .diverged
      | some s4 =>
        .finished (if cfg.save then saveCkpt "agent_final.pt" (evalMark true s4)
                   else evalMark true s4)

/-! ## The evaluation protocol (`Trainer._evaluate`) -/

/-- One vectorized `eval_env.step` result over `K` parallel environments:
per-environment reward and episode flags, and the optional `lives` array of
`infos` (`infos.get('lives', np.zeros_like(r))`). -/
structure EvalIn (K : ℕ) where
  r : Fin K → ℚ
  terminated : Fin K → Bool
  truncated : Fin K → Bool
  lives : Option (Fin K → ℕ)

/-- Update `current_scores[not_finished] += r[not_finished]`: rewards of already
finished environments are not accumulated. -/
def stepScores (K : ℕ) (finished : Fin K → Bool) (current : Fin K → ℚ)
    (r : Fin K → ℚ) : Fin K → ℚ :=
  fun i => if finished i then current i else current i + r i

/-- Default `lives = infos.get('lives', np.zeros_like(r))`. -/
def livesOf (K : ℕ) (l : Option (Fin K → ℕ)) : Fin K → ℕ :=
  fun i => match l with
  | some f => f i
  | none => 0

/-- The finishing-flag update of the evaluation loop: an unfinished
environment becomes finished when it is truncated, or when it is terminated
with a lives count of zero. -/
def stepFinished (K : ℕ) (finished terminated truncated : Fin K → Bool)
    (lives : Fin K → ℕ) : Fin K → Bool :=
  fun i =>
    if finished i then true
    else if truncated i then true
    else if terminated i ∧ lives i = 0 then true
    else false

/-- The `num_truncated` increments of one step: truncations of environments
that were not already finished. -/
def stepTruncCount (K : ℕ) (finished truncated : Fin K → Bool) : ℕ :=
  (List.finRange K).countP fun i => ¬finished i ∧ truncated i = true

/-- State of the evaluation loop.  `allScores` is a ghost copy of `scores`
without the final trim; `resets` records, for each `eval_env.reset` call
issued inside the loop, the finished vector at the moment of the reset. -/
structure EvalState (K : ℕ) where
  scores : List ℚ
  allScores : List ℚ
  current : Fin K → ℚ
  finished : Fin K → Bool
  numTruncated : ℕ
  resets : List (Fin K → Bool)

def evalInit (K : ℕ) : EvalState K :=
  ⟨[], [], fun _ => 0, fun _ => false, 0, []⟩

/-- The `while len(scores) < num_episodes` loop of `Trainer._evaluate`:
step all environments, accumulate unfinished rewards, update finished flags;
when all environments are finished, extend the score list, and either break
(trimming to the first `N` scores) or reset every environment together.
`env t` abstracts the `t`-th vectorized environment step result (policy,
observation preprocessing and the dreamer are score-irrelevant here).  Fuel
exhaustion models an environment that never finishes. -/
def evalGo (K N : ℕ) (env : ℕ → EvalIn K) : ℕ → ℕ → EvalState K → Option (EvalState K)
  | 0, _, _ => none
  | f + 1, t, st =>
    if st.scores.length < N then
      let e := env t
      let current1 := stepScores K st.finished st.current e.r
      let finished1 := stepFinished K st.finished e.terminated e.truncated (livesOf K e.lives)
      let nt1 := st.numTruncated + stepTruncCount K st.finished e.truncated
      if ∀ i, finished1 i = true then
        let scores1 := st.scores ++ List.ofFn current1
        if N ≤ scores1.length then
          some ⟨scores1.take N, st.allScores ++ List.ofFn current1, current1,
                finished1, nt1, st.resets⟩
        else
          evalGo K N env f (t + 1)
            ⟨scores1, st.allScores ++ List.ofFn current1, fun _ => 0,
             fun _ => false, nt1, st.resets ++ [finished1]⟩
      else
        evalGo K N env f (t + 1)
          ⟨st.scores, st.allScores, current1, finished1, nt1, st.resets⟩
    else some st

/-- Minimum of a score list (`np.min`; meaningful for nonempty lists). -/
def listMin : List ℚ → ℚ
  | [] => 0
  | x :: xs => xs.foldl min x

/-- Maximum of a score list (`np.max`). -/
def listMax : List ℚ → ℚ
  | [] => 0
  | x :: xs => xs.foldl max x

/-- Mean of a score list (`np.mean`). -/
def listMean (l : List ℚ) : ℚ := l.sum / l.length

/-- Insertion sort of the scores, for the median. -/
def insertQ (x : ℚ) : List ℚ → List ℚ
  | [] => [x]
  | y :: ys => if x ≤ y then x :: y :: ys else y :: insertQ x ys

def sortQ : List ℚ → List ℚ
  | [] => []
  | x :: xs => insertQ x (sortQ xs)

/-- Median (`np.median`): middle element of the sorted list, or the average of the
two middle elements for even length. -/
def listMedian (l : List ℚ) : ℚ :=
  let s := sortQ l
  if l.length % 2 = 1 then s.getD (l.length / 2) 0
  else (s.getD (l.length / 2 - 1) 0 + s.getD (l.length / 2) 0) / 2

/-- The score aggregates emitted by `_evaluate`.  `score_var` is the square
of `np.std(scores)` (the variance), which determines the reported standard
deviation. -/
structure ScoreMetrics where
  score_mean : ℚ
  score_var : ℚ
  score_median : ℚ
  score_min : ℚ
  score_max : ℚ
  deriving DecidableEq

def scoreMetricsOf (l : List ℚ) : ScoreMetrics :=
  { score_mean := listMean l
    score_var := (l.map fun x => (x - listMean l) ^ 2).sum / l.length
    score_median := listMedian l
    score_min := listMin l
    score_max := listMax l }

/-! ## Concrete configurations used by counterexamples and witnesses -/

/-- The spec's passing construction scenario: `pretrain_obs_p = 0.6`,
`pretrain_dyn_p = 0.3`. -/
def cfgPass : Config :=
  { buffer_prefill := 10, pretrain_obs_p := 6/10, pretrain_dyn_p := 3/10,
    budget := 1000, pretrain_budget := 100,
    wm_train_steps := 1, wm_batch_size := 1, wm_sequence_length := 1,
    ac_batch_size := 1, ac_horizon := 1,
    eval_every := 100, save_every := 100, save := false, capacity := 100 }

/-- The spec's failing construction scenario: `pretrain_obs_p = 0.7`,
`pretrain_dyn_p = 0.4` (sum 1.1). -/
def cfgFail : Config :=
  { cfgPass with pretrain_obs_p := 7/10, pretrain_dyn_p := 4/10 }

/-- Failing input for the actor-critic pretraining budget:
`pretrain_budget = 1000`, `pretrain_obs_p = 0.6`, `pretrain_dyn_p = 0.3`. -/
def cfgC2 : Config :=
  { cfgPass with pretrain_budget := 1000 }

/-- A configuration with `budget < pretrain_budget`: `num_batches` and
`train_every` are negative, the pre-loop arithmetic raises nothing, and the
first training phase of the main loop never terminates. -/
def cfgBadC1 : Config :=
  { buffer_prefill := 1, pretrain_obs_p := 0, pretrain_dyn_p := 0,
    budget := 0, pretrain_budget := 100,
    wm_train_steps := 0, wm_batch_size := 0, wm_sequence_length := 0,
    ac_batch_size := 1, ac_horizon := 1,
    eval_every := 1000, save_every := 1000, save := false, capacity := 3 }

/-- A small complete run: `train_every = 2`, `save_every = 4`, saving
enabled, no pretraining budget, evaluation only before and after the loop. -/
def cfgC8 : Config :=
  { buffer_prefill := 1, pretrain_obs_p := 0, pretrain_dyn_p := 0,
    budget := 11/2, pretrain_budget := 0,
    wm_train_steps := 0, wm_batch_size := 0, wm_sequence_length := 0,
    ac_batch_size := 1, ac_horizon := 1,
    eval_every := 100, save_every := 4, save := true, capacity := 12 }

/-! ## C2, C3, C4 -/

/-- C2: the three pretraining sweeps are budgeted so that the actor-critic
sweep consumes the remaining `pretrain_budget * (1 - pretrain_obs_p -
pretrain_dyn_p)` samples and the total never exceeds `pretrain_budget`.
The source instead computes the actor-critic budget as
`pretrain_budget * (1 - pretrain_obs_p + pretrain_dyn_p)` (line 289 of
`trainer.py`, a sign slip): at `pretrain_budget = 1000`, `obs_p = 0.6`,
`dyn_p = 0.3` the code's actor-critic budget is `700` where the remaining
fraction is `100`, and the three budgets total `1600 > 1000`. -/
theorem c2_ac_budget_code_eval :
    acPretrainBudget cfgC2 = 700 ∧
    cfgC2.pretrain_budget * (1 - cfgC2.pretrain_obs_p - cfgC2.pretrain_dyn_p) = 100 ∧
    cfgC2.pretrain_budget <
      obsPretrainBudget cfgC2 + dynPretrainBudget cfgC2 + acPretrainBudget cfgC2 := by
  refine ⟨by norm_num [acPretrainBudget, cfgC2, cfgPass], by norm_num [cfgC2, cfgPass], ?_⟩
  norm_num [obsPretrainBudget, dynPretrainBudget, acPretrainBudget, cfgC2, cfgPass]

/-- C3: constructing the `Trainer` raises exactly when `buffer_prefill <= 0`
or `pretrain_obs_p + pretrain_dyn_p > 1`; concretely `obs_p=0.6, dyn_p=0.3`
passes while `obs_p=0.7, dyn_p=0.4` raises. -/
theorem c3_constructor_checks :
    (∀ cfg : Config, (∃ e, initCheck cfg = .error e) ↔
      (cfg.buffer_prefill ≤ 0 ∨ 1 < cfg.pretrain_obs_p + cfg.pretrain_dyn_p)) ∧
    initCheck cfgPass = .ok () ∧ initCheck cfgFail = .error "ValueError" := by
  refine ⟨fun cfg => ?_, by norm_num [initCheck, cfgPass],
    by norm_num [initCheck, cfgFail, cfgPass]⟩
  unfold initCheck
  split_ifs with h1 h2
  · exact ⟨fun _ => Or.inl h1, fun _ => ⟨"ValueError", rfl⟩⟩
  · exact ⟨fun _ => Or.inr h2, fun _ => ⟨"ValueError", rfl⟩⟩
  · constructor
    · rintro ⟨e, he⟩
      exact absurd he (by simp)
    · rintro (h | h)
      · exact absurd h h1
      · exact absurd h h2

/-- C4: the claim says a configuration with zero or negative `train_every`
or `num_batches` makes `run` raise before the main loop.  The source has no
such guard: the only pre-loop failures are Python `ZeroDivisionError`s, i.e.
`preLoopCheck` errs exactly when `budget_per_step = 0` or `num_batches = 0`;
negative values pass straight through into the main loop. -/
theorem c4_preloop_raise_amended (cfg : Config) :
    (∃ m, preLoopCheck cfg = .error m) ↔
      (budgetPerStep cfg = 0 ∨ numBatches cfg = 0) := by
  unfold preLoopCheck
  split_ifs with h1 h2
  · exact ⟨fun _ => Or.inl h1, fun _ => ⟨"ZeroDivisionError", rfl⟩⟩
  · exact ⟨fun _ => Or.inr h2, fun _ => ⟨"ZeroDivisionError", rfl⟩⟩
  · constructor
    · rintro ⟨e, he⟩
      exact absurd he (by simp)
    · rintro (h | h)
      · exact absurd h h1
      · exact absurd h h2

/-- C4 counterexample: at `cfgBadC1`, `num_batches = -100 < 0` and
`train_every = -1/50 < 0`, the pre-loop arithmetic raises nothing
(`preLoopCheck` succeeds), and the main loop is entered
(`buffer_prefill < capacity`), contradicting the claim that `run` raises
before entering the loop. -/
theorem c4_no_guard_counterexample :
    numBatches cfgBadC1 < 0 ∧ trainEvery cfgBadC1 < 0 ∧
    prefillNat cfgBadC1 < cfgBadC1.capacity ∧
    preLoopCheck cfgBadC1 = .ok (numBatches cfgBadC1, trainEvery cfgBadC1) := by
  refine ⟨by norm_num [numBatches, budgetPerStep, cfgBadC1], ?_, by decide, ?_⟩
  · norm_num [trainEvery, numBatches, budgetPerStep, cfgBadC1, prefillNat]
  · norm_num [preLoopCheck, numBatches, budgetPerStep, cfgBadC1]

/-! ## C9: the prefill phase -/

/-- An environment step through the replay buffer (`replay_buffer.step`). -/
def Ev.isStep : Ev → Bool
  | .prefillStep => true
  | .collectStep => true
  | _ => false

/-- A buffer-metrics recording event. -/
def Ev.isBufM : Ev → Bool
  | .bufMetrics _ => true
  | _ => false

theorem prefillGo_spec (n : ℕ) (s : RunState) :
    (prefillGo n s).size = s.size + n ∧
    (prefillGo n s).envSteps = s.envSteps + n ∧
    (prefillGo n s).trace.countP Ev.isStep = s.trace.countP Ev.isStep + n ∧
    (prefillGo n s).trace.countP Ev.isBufM = s.trace.countP Ev.isBufM + n ∧
    (prefillGo n s).lastEval = s.lastEval ∧
    (prefillGo n s).counter = s.counter ∧
    (prefillGo n s).mainSteps = s.mainSteps ∧
    (prefillGo n s).rounds = s.rounds := by
  induction n generalizing s with
  | zero => simp [prefillGo]
  | succ n ih =>
    simp only [prefillGo]
    obtain ⟨h1, h2, h3, h4, h5, h6, h7, h8⟩ :=
      ih (recordBufMetrics (envStepPrefill s))
    have e3 : (recordBufMetrics (envStepPrefill s)).trace.countP Ev.isStep
        = s.trace.countP Ev.isStep + 1 := by
      simp [recordBufMetrics, envStepPrefill, List.countP_append,
        List.countP_cons, Ev.isStep]
    have e4 : (recordBufMetrics (envStepPrefill s)).trace.countP Ev.isBufM
        = s.trace.countP Ev.isBufM + 1 := by
      simp [recordBufMetrics, envStepPrefill, List.countP_append,
        List.countP_cons, Ev.isBufM]
    refine ⟨?_, ?_, ?_, ?_, ?_, ?_, ?_, ?_⟩
    · rw [h1]; show s.size + 1 + n = s.size + (n + 1); omega
    · rw [h2]; show s.envSteps + 1 + n = s.envSteps + (n + 1); omega
    · rw [h3, e3]; omega
    · rw [h4, e4]; omega
    · rw [h5]; rfl
    · rw [h6]; rfl
    · rw [h7]; rfl
    · rw [h8]; rfl

/-- C9: starting from an empty replay store, the prefill phase performs
exactly `buffer_prefill` replay-buffer step calls (the `range(prefill - 1)`
loop plus the final step), records buffer metrics at each step, and leaves
`size = buffer_prefill`. -/
theorem c9_prefill_exact (cfg : Config) (h : 0 < cfg.buffer_prefill) :
    ((prefillPhase cfg initState).size : Int) = cfg.buffer_prefill ∧
    ((prefillPhase cfg initState).envSteps : Int) = cfg.buffer_prefill ∧
    ((prefillPhase cfg initState).trace.countP Ev.isStep : Int) = cfg.buffer_prefill ∧
    ((prefillPhase cfg initState).trace.countP Ev.isBufM : Int) = cfg.buffer_prefill := by
  obtain ⟨h1, h2, h3, h4, -, -, -, -⟩ := prefillGo_spec (prefillNat cfg) initState
  have hn : (prefillNat cfg : Int) = cfg.buffer_prefill :=
    Int.toNat_of_nonneg (le_of_lt h)
  unfold prefillPhase
  rw [h1, h2, h3, h4]
  simp [initState, hn]

/-- C9 witness: with `capacity = 100` and `buffer_prefill = 10`, prefill
performs exactly 10 appends and 10 metric recordings and leaves size 10. -/
theorem c9_prefill_witness :
    (0 : Int) < cfgPass.buffer_prefill ∧
    ((prefillPhase cfgPass initState).size : Int) = 10 ∧ cfgPass.capacity = 100 ∧
    ((prefillPhase cfgPass initState).trace.countP Ev.isStep : Int) = 10 := by
  have h := c9_prefill_exact cfgPass (by decide)
  exact ⟨by decide, by rw [h.1]; rfl, by decide, by rw [h.2.2.1]; rfl⟩

/-! ## C5: the fractional step-counter invariant -/

theorem collectGo_delta (cfg : Config) (te : ℚ) (f : ℕ) (s : RunState) :
    ∃ k : ℕ,
      (collectGo cfg te f s).counter = s.counter + k ∧
      (collectGo cfg te f s).mainSteps = s.mainSteps + k ∧
      (collectGo cfg te f s).size = s.size + k ∧
      (collectGo cfg te f s).envSteps = s.envSteps + k ∧
      (collectGo cfg te f s).rounds = s.rounds := by
  induction f generalizing s with
  | zero => exact ⟨0, by simp [collectGo]⟩
  | succ f ih =>
    simp only [collectGo]
    by_cases hc : s.counter ≤ te ∧ s.size < cfg.capacity
    · rw [if_pos hc]
      set u := envStepMain
        (if cfg.eval_every ≤ (s.size : Int) - (s.lastEval : Int)
         then evalMark false s else s) with hu
      obtain ⟨k, h1, h2, h3, h4, h5⟩ := ih u
      have e1 : u.counter = s.counter + 1 := by rw [hu]; split_ifs <;> rfl
      have e2 : u.mainSteps = s.mainSteps + 1 := by rw [hu]; split_ifs <;> rfl
      have e3 : u.size = s.size + 1 := by rw [hu]; split_ifs <;> rfl
      have e4 : u.envSteps = s.envSteps + 1 := by rw [hu]; split_ifs <;> rfl
      have e5 : u.rounds = s.rounds := by rw [hu]; split_ifs <;> rfl
      refine ⟨k + 1, ?_, ?_, ?_, ?_, ?_⟩
      · rw [h1, e1]; push_cast; ring
      · rw [h2, e2]; omega
      · rw [h3, e3]; omega
      · rw [h4, e4]; omega
      · rw [h5, e5]
    · rw [if_neg hc]; exact ⟨0, by simp⟩

theorem trainGo_delta (te : ℚ) (T : ℕ) (s s' : RunState)
    (h : trainGo te T s = some s') :
    ∃ k : ℕ,
      s'.counter = s.counter - k * te ∧
      s'.rounds = s.rounds + k ∧
      s'.mainSteps = s.mainSteps ∧
      s'.size = s.size ∧
      s'.envSteps = s.envSteps ∧
      s'.lastEval = s.lastEval := by
  induction T generalizing s with
  | zero =>
    unfold trainGo at h
    split_ifs at h
    exact ⟨0, by simp [← Option.some_inj.mp h]⟩
  | succ T ih =>
    unfold trainGo at h
    split_ifs at h with hc
    · obtain ⟨k, h1, h2, h3, h4, h5, h6⟩ := ih _ h
      exact ⟨k + 1, by
        simp [h1, h2, h3, h4, h5, h6, trainRoundStep]
        constructor
        · ring
        · omega⟩
    · exact ⟨0, by simp [← Option.some_inj.mp h]⟩

theorem trainGo_exit (te : ℚ) (T : ℕ) (s s' : RunState)
    (h : trainGo te T s = some s') : s'.counter < te := by
  induction T generalizing s with
  | zero =>
    unfold trainGo at h
    split_ifs at h with hc
    rw [← Option.some_inj.mp h]
    exact lt_of_not_le hc
  | succ T ih =>
    unfold trainGo at h
    split_ifs at h with hc
    · exact ih _ h
    · rw [← Option.some_inj.mp h]
      exact lt_of_not_le hc

theorem trainGo_nonneg (te : ℚ) (T : ℕ) (s s' : RunState)
    (hs : 0 ≤ s.counter) (h : trainGo te T s = some s') : 0 ≤ s'.counter := by
  induction T generalizing s with
  | zero =>
    unfold trainGo at h
    split_ifs at h
    rw [← Option.some_inj.mp h]; exact hs
  | succ T ih =>
    unfold trainGo at h
    split_ifs at h with hc
    · exact ih _ (by simpa [trainRoundStep] using sub_nonneg.mpr hc) h
    · rw [← Option.some_inj.mp h]; exact hs

/-- C5: throughout the main loop, with `train_every > 0`, the fractional
step counter equals the main-loop environment steps collected so far minus
`train_every` times the training rounds performed so far; this invariant is
preserved by every collection phase and every training phase, and on exit
from a training phase the counter additionally satisfies
`0 <= step_counter < train_every`. -/
theorem c5_step_counter_invariant (cfg : Config) (te : ℚ) (s : RunState)
    (_hte : 0 < te)
    (hInv : s.counter = (s.mainSteps : ℚ) - te * (s.rounds : ℚ))
    (hpos : 0 ≤ s.counter) :
    ((collectPhase cfg te s).counter =
        ((collectPhase cfg te s).mainSteps : ℚ) - te * ((collectPhase cfg te s).rounds : ℚ) ∧
      0 ≤ (collectPhase cfg te s).counter) ∧
    ∀ T s', trainGo te T (collectPhase cfg te s) = some s' →
      (s'.counter = (s'.mainSteps : ℚ) - te * (s'.rounds : ℚ) ∧
        0 ≤ s'.counter ∧ s'.counter < te) := by
  obtain ⟨k, h1, h2, h3, h4, h5⟩ := collectGo_delta cfg te (cfg.capacity - s.size) s
  have hInv1 : (collectPhase cfg te s).counter =
      ((collectPhase cfg te s).mainSteps : ℚ) - te * ((collectPhase cfg te s).rounds : ℚ) := by
    unfold collectPhase
    rw [h1, h2, h5, hInv]
    push_cast
    ring
  have hpos1 : 0 ≤ (collectPhase cfg te s).counter := by
    unfold collectPhase
    rw [h1]
    positivity
  refine ⟨⟨hInv1, hpos1⟩, fun T s' h => ?_⟩
  obtain ⟨m, g1, g2, g3, g4, g5, g6⟩ := trainGo_delta te T _ _ h
  refine ⟨?_, trainGo_nonneg te T _ _ hpos1 h, trainGo_exit te T _ _ h⟩
  rw [g1, g2, g3, hInv1]
  push_cast
  ring

/-- C5 witness: the invariant theorem applied at `cfgC8`, `train_every = 2`
and the initial state. -/
theorem c5_step_counter_witness :
    (0 : ℚ) < 2 ∧
    (((collectPhase cfgC8 2 initState).counter =
        ((collectPhase cfgC8 2 initState).mainSteps : ℚ)
          - 2 * ((collectPhase cfgC8 2 initState).rounds : ℚ) ∧
      0 ≤ (collectPhase cfgC8 2 initState).counter) ∧
    ∀ T s', trainGo 2 T (collectPhase cfgC8 2 initState) = some s' →
      (s'.counter = (s'.mainSteps : ℚ) - 2 * (s'.rounds : ℚ) ∧
        0 ≤ s'.counter ∧ s'.counter < 2)) :=
  ⟨by norm_num,
    c5_step_counter_invariant cfgC8 2 initState (by norm_num)
      (by simp [initState]) (by simp [initState])⟩

/-! ## List aggregate lemmas for the evaluation scores -/

theorem le_foldl_max (xs : List ℚ) (x : ℚ) : x ≤ xs.foldl max x := by
  induction xs generalizing x with
  | nil => exact le_refl x
  | cons y ys ih => exact le_trans (le_max_left x y) (ih (max x y))

theorem mem_le_foldl_max (xs : List ℚ) (x : ℚ) : ∀ y ∈ xs, y ≤ xs.foldl max x := by
  induction xs generalizing x with
  | nil => intro y hy; exact absurd hy (List.not_mem_nil y)
  | cons z zs ih =>
    intro y hy
    rcases List.mem_cons.mp hy with h | h
    · subst h
      exact le_trans (le_max_right x y) (le_foldl_max zs (max x y))
    · exact ih (max x z) y h

theorem le_listMax (l : List ℚ) (y : ℚ) (h : y ∈ l) : y ≤ listMax l := by
  match l with
  | x :: xs =>
    rcases List.mem_cons.mp h with h' | h'
    · subst h'; exact le_foldl_max xs y
    · exact mem_le_foldl_max xs x y h'

theorem foldl_min_le (xs : List ℚ) (x : ℚ) : xs.foldl min x ≤ x := by
  induction xs generalizing x with
  | nil => exact le_refl x
  | cons y ys ih => exact le_trans (ih (min x y)) (min_le_left x y)

theorem foldl_min_le_mem (xs : List ℚ) (x : ℚ) : ∀ y ∈ xs, xs.foldl min x ≤ y := by
  induction xs generalizing x with
  | nil => intro y hy; exact absurd hy (List.not_mem_nil y)
  | cons z zs ih =>
    intro y hy
    rcases List.mem_cons.mp hy with h | h
    · subst h
      exact le_trans (foldl_min_le zs (min x y)) (min_le_right x y)
    · exact ih (min x z) y h

theorem listMin_le (l : List ℚ) (y : ℚ) (h : y ∈ l) : listMin l ≤ y := by
  match l with
  | x :: xs =>
    rcases List.mem_cons.mp h with h' | h'
    · subst h'; exact foldl_min_le xs y
    · exact foldl_min_le_mem xs x y h'

theorem sum_le_length_mul (l : List ℚ) (M : ℚ) (h : ∀ y ∈ l, y ≤ M) :
    l.sum ≤ (l.length : ℚ) * M := by
  induction l with
  | nil => simp
  | cons x xs ih =>
    have hx : x ≤ M := h x (List.mem_cons_self x xs)
    have hs : xs.sum ≤ (xs.length : ℚ) * M :=
      ih fun y hy => h y (List.mem_cons_of_mem x hy)
    simp only [List.sum_cons, List.length_cons]
    push_cast
    nlinarith

theorem length_mul_le_sum (l : List ℚ) (m : ℚ) (h : ∀ y ∈ l, m ≤ y) :
    (l.length : ℚ) * m ≤ l.sum := by
  induction l with
  | nil => simp
  | cons x xs ih =>
    have hx : m ≤ x := h x (List.mem_cons_self x xs)
    have hs : (xs.length : ℚ) * m ≤ xs.sum :=
      ih fun y hy => h y (List.mem_cons_of_mem x hy)
    simp only [List.sum_cons, List.length_cons]
    push_cast
    nlinarith

theorem listMean_le_listMax (l : List ℚ) (h : l ≠ []) : listMean l ≤ listMax l := by
  have hlen : 0 < (l.length : ℚ) := by
    have := List.length_pos.mpr h
    exact_mod_cast this
  rw [listMean, div_le_iff₀ hlen]
  have := sum_le_length_mul l (listMax l) (fun y hy => le_listMax l y hy)
  linarith

theorem listMin_le_listMean (l : List ℚ) (h : l ≠ []) : listMin l ≤ listMean l := by
  have hlen : 0 < (l.length : ℚ) := by
    have := List.length_pos.mpr h
    exact_mod_cast this
  rw [listMean, le_div_iff₀ hlen]
  have := length_mul_le_sum l (listMin l) (fun y hy => listMin_le l y hy)
  linarith

/-! ## C6: evaluation score list -/

theorem evalGo_spec (K N : ℕ) (env : ℕ → EvalIn K) (res : EvalState K) :
    ∀ fuel t st, st.scores.length < N → st.scores = st.allScores →
      (∀ v ∈ st.resets, ∀ i, v i = true) →
      evalGo K N env fuel t st = some res →
      res.scores.length = N ∧ res.scores = res.allScores.take N ∧
        (∀ v ∈ res.resets, ∀ i, v i = true) := by
  intro fuel
  induction fuel with
  | zero => intro t st _ _ _ h; exact absurd h (by simp [evalGo])
  | succ fuel ih =>
    intro t st hlen hsc hres h
    rw [evalGo, if_pos hlen] at h
    by_cases hfin : ∀ i, stepFinished K st.finished (env t).terminated (env t).truncated
        (livesOf K (env t).lives) i = true
    · rw [if_pos hfin] at h
      by_cases hN : N ≤ (st.scores ++
          List.ofFn (stepScores K st.finished st.current (env t).r)).length
      · rw [if_pos hN] at h
        obtain rfl := Option.some_inj.mp h
        refine ⟨?_, ?_, hres⟩
        · simp only [List.length_take]
          omega
        · rw [hsc]
      · rw [if_neg hN] at h
        refine ih _ _ ?_ ?_ ?_ h
        · simpa using lt_of_not_le hN
        · simp [hsc]
        · intro v hv
          rcases List.mem_append.mp hv with h' | h'
          · exact hres v h'
          · rw [List.mem_singleton.mp h']
            exact hfin
    · rw [if_neg hfin] at h
      refine ih (t + 1) _ ?_ ?_ ?_ h
      · exact hlen
      · exact hsc
      · exact hres

/-- C6: for `evaluate` with `num_episodes = N >= 1`, assuming every episode
eventually finishes (the loop terminates), environments are only ever reset
when all of them are finished, a completed round with excess episodes is
trimmed to exactly the first `N` completed scores, exactly `N` scores are
aggregated, and `score_min <= score_mean <= score_max` holds for the
returned aggregates. -/
theorem c6_evaluate_scores (K N : ℕ) (env : ℕ → EvalIn K) (fuel t0 : ℕ)
    (res : EvalState K) (hN : 1 ≤ N)
    (h : evalGo K N env fuel t0 (evalInit K) = some res) :
    res.scores.length = N ∧
    res.scores = res.allScores.take N ∧
    (∀ v ∈ res.resets, ∀ i, v i = true) ∧
    (scoreMetricsOf res.scores).score_min ≤ (scoreMetricsOf res.scores).score_mean ∧
    (scoreMetricsOf res.scores).score_mean ≤ (scoreMetricsOf res.scores).score_max := by
  obtain ⟨h1, h2, h3⟩ := evalGo_spec K N env res fuel t0 (evalInit K)
    (by simpa [evalInit] using hN) (by simp [evalInit]) (by simp [evalInit]) h
  have hne : res.scores ≠ [] := by
    intro hnil
    rw [hnil] at h1
    simp at h1
    omega
  exact ⟨h1, h2, h3, listMin_le_listMean _ hne, listMean_le_listMax _ hne⟩

/-- Environment stream for the C6 witness: a single environment that
terminates (with no lives info) on every step, reward `1`. -/
def envW : ℕ → EvalIn 1 :=
  fun _ => ⟨fun _ => 1, fun _ => true, fun _ => false, none⟩

/-- C6 witness: one environment, one episode, the loop finishes and the
aggregate inequalities hold. -/
theorem c6_evaluate_witness :
    ∃ res, evalGo 1 1 envW 2 0 (evalInit 1) = some res ∧
      (res.scores.length = 1 ∧
       res.scores = res.allScores.take 1 ∧
       (∀ v ∈ res.resets, ∀ i, v i = true) ∧
       (scoreMetricsOf res.scores).score_min ≤ (scoreMetricsOf res.scores).score_mean ∧
       (scoreMetricsOf res.scores).score_mean ≤ (scoreMetricsOf res.scores).score_max) := by
  obtain ⟨res, hres⟩ : ∃ r, evalGo 1 1 envW 2 0 (evalInit 1) = some r := ⟨_, rfl⟩
  exact ⟨res, hres, c6_evaluate_scores 1 1 envW 2 0 res (le_refl 1) hres⟩

/-! ## C10: the finished-flag logic of the evaluation loop -/

/-- C10: during evaluation an environment is marked finished exactly when
its truncated flag is set, or its terminated flag is set with a lives count
of zero (lives defaulting to zero when the vectorized step returns no
`lives` info); finished environments stay finished, and their per-step
rewards are no longer accumulated into the episode score. -/
theorem c10_finished_flag :
    (∀ (K : ℕ) (finished terminated truncated : Fin K → Bool)
        (linfo : Option (Fin K → ℕ)) (i : Fin K),
      stepFinished K finished terminated truncated (livesOf K linfo) i = true ↔
        (finished i = true ∨ truncated i = true ∨
          (terminated i = true ∧ livesOf K linfo i = 0))) ∧
    (∀ (K : ℕ) (i : Fin K), livesOf K none i = 0) ∧
    (∀ (K : ℕ) (finished : Fin K → Bool) (current r : Fin K → ℚ) (i : Fin K),
      finished i = true → stepScores K finished current r i = current i) ∧
    (∀ (K : ℕ) (finished : Fin K → Bool) (current r : Fin K → ℚ) (i : Fin K),
      finished i = false → stepScores K finished current r i = current i + r i) ∧
    (∀ (K : ℕ) (finished terminated truncated : Fin K → Bool)
        (lives : Fin K → ℕ) (i : Fin K), finished i = true →
      stepFinished K finished terminated truncated lives i = true) := by
  refine ⟨fun K finished terminated truncated linfo i => ?_,
    fun K i => rfl,
    fun K finished current r i h => by simp [stepScores, h],
    fun K finished current r i h => by simp [stepScores, h],
    fun K finished terminated truncated lives i h => by simp [stepFinished, h]⟩
  unfold stepFinished
  split_ifs with h1 h2 h3
  · simp [h1]
  · simp [h1, h2]
  · simp [h1, h2, h3]
  · constructor
    · intro h; exact absurd h (by simp)
    · rintro (h | h | h)
      · exact absurd h (by simp [h1])
      · exact absurd h (by simp [h2])
      · exact absurd h h3

/-- C10 witness: the flag logic applied at a concrete instance (one
environment, terminated with no lives info, already-finished reward
gating). -/
theorem c10_finished_flag_witness :
    (stepFinished 1 (fun _ => false) (fun _ => true) (fun _ => false)
      (livesOf 1 none) 0 = true) ∧
    (stepScores 1 (fun _ => true) (fun _ => 5) (fun _ => 3) 0 = 5) ∧
    (stepFinished 1 (fun _ => true) (fun _ => false) (fun _ => false)
      (fun _ => 7) 0 = true) := by
  refine ⟨?_, ?_, ?_⟩
  · exact (c10_finished_flag.1 1 (fun _ => false) (fun _ => true) (fun _ => false)
      none 0).mpr (Or.inr (Or.inr ⟨rfl, rfl⟩))
  · exact c10_finished_flag.2.2.1 1 (fun _ => true) (fun _ => 5) (fun _ => 3) 0 rfl
  · exact c10_finished_flag.2.2.2.2 1 (fun _ => true) (fun _ => false)
      (fun _ => false) (fun _ => 7) 0 rfl

/-! ## Trace composition lemmas -/


theorem prefillGo_trace (n : ℕ) (s : RunState) :
    ∃ t, (prefillGo n s).trace = s.trace ++ t ∧
      ∀ e ∈ t, e = Ev.prefillStep ∨ ∃ m, e = Ev.bufMetrics m := by
  induction n generalizing s with
  | zero => exact ⟨[], by simp [prefillGo], by simp⟩
  | succ n ih =>
    obtain ⟨t, h1, h2⟩ := ih (recordBufMetrics (envStepPrefill s))
    refine ⟨Ev.prefillStep :: Ev.bufMetrics (s.size + 1) :: t, ?_, ?_⟩
    · show (prefillGo n (recordBufMetrics (envStepPrefill s))).trace = _
      rw [h1]
      show (s.trace ++ [Ev.prefillStep]) ++ [Ev.bufMetrics (s.size + 1)] ++ t = _
      simp
    · intro e he
      rcases List.mem_cons.mp he with rfl | he
      · exact Or.inl rfl
      rcases List.mem_cons.mp he with rfl | he
      · exact Or.inr ⟨s.size + 1, rfl⟩
      · exact h2 e he

theorem obsGo_spec (size B : ℕ) (f : ℕ) : ∀ (rem : ℕ) (b : ℚ) (s s' : RunState),
    obsGo size B f rem b s = some s' →
    s'.size = s.size ∧ s'.envSteps = s.envSteps ∧ s'.counter = s.counter ∧
    s'.lastEval = s.lastEval ∧ s'.mainSteps = s.mainSteps ∧ s'.rounds = s.rounds ∧
    ∃ t, s'.trace = s.trace ++ t ∧ ∀ e ∈ t, ∃ n, e = Ev.obsOpt n := by
  induction f with
  | zero => intro rem b s s' h; exact absurd h (by simp [obsGo])
  | succ f ih =>
    intro rem b s s' h
    rw [obsGo] at h
    split_ifs at h with h1 h2
    · obtain rfl := Option.some_inj.mp h
      exact ⟨rfl, rfl, rfl, rfl, rfl, rfl, [], by simp, by simp⟩
    · exact ih size b s s' h
    · obtain ⟨g1, g2, g3, g4, g5, g6, t, g7, g8⟩ := ih _ _ _ _ h
      refine ⟨g1, g2, g3, g4, g5, g6, Ev.obsOpt (min B rem) :: t, ?_, ?_⟩
      · rw [g7]
        show (s.trace ++ [Ev.obsOpt (min B rem)]) ++ t = _
        simp
      · intro e he
        rcases List.mem_cons.mp he with rfl | he
        · exact ⟨min B rem, rfl⟩
        · exact g8 e he

theorem sweepOnce_spec (mk : ℕ → Ev) : ∀ (l : List ℕ) (b : ℚ) (s : RunState),
    (sweepOnce mk l b s).2.size = s.size ∧
    (sweepOnce mk l b s).2.envSteps = s.envSteps ∧
    (sweepOnce mk l b s).2.counter = s.counter ∧
    (sweepOnce mk l b s).2.lastEval = s.lastEval ∧
    (sweepOnce mk l b s).2.mainSteps = s.mainSteps ∧
    (sweepOnce mk l b s).2.rounds = s.rounds ∧
    ∃ t, (sweepOnce mk l b s).2.trace = s.trace ++ t ∧ ∀ e ∈ t, ∃ n, e = mk n := by
  intro l
  induction l with
  | nil => intro b s; exact ⟨rfl, rfl, rfl, rfl, rfl, rfl, [], by simp [sweepOnce], by simp⟩
  | cons n rest ih =>
    intro b s
    rw [sweepOnce]
    split_ifs with h1
    · refine ⟨rfl, rfl, rfl, rfl, rfl, rfl, [mk n], rfl, ?_⟩
      intro e he
      rw [List.mem_singleton.mp he]
      exact ⟨n, rfl⟩
    · obtain ⟨g1, g2, g3, g4, g5, g6, t, g7, g8⟩ := ih (b - (n : ℚ)) (pushEv (mk n) s)
      refine ⟨g1, g2, g3, g4, g5, g6, mk n :: t, ?_, ?_⟩
      · rw [g7]
        show (s.trace ++ [mk n]) ++ t = _
        simp
      · intro e he
        rcases List.mem_cons.mp he with rfl | he
        · exact ⟨n, rfl⟩
        · exact g8 e he

theorem sweepLoop_spec (mk : ℕ → Ev) (sweep : List ℕ) (f : ℕ) :
    ∀ (b : ℚ) (s s' : RunState),
    sweepLoop mk sweep f b s = some s' →
    s'.size = s.size ∧ s'.envSteps = s.envSteps ∧ s'.counter = s.counter ∧
    s'.lastEval = s.lastEval ∧ s'.mainSteps = s.mainSteps ∧ s'.rounds = s.rounds ∧
    ∃ t, s'.trace = s.trace ++ t ∧ ∀ e ∈ t, ∃ n, e = mk n := by
  induction f with
  | zero => intro b s s' h; exact absurd h (by simp [sweepLoop])
  | succ f ih =>
    intro b s s' h
    rw [sweepLoop] at h
    split_ifs at h with h1
    · obtain rfl := Option.some_inj.mp h
      exact ⟨rfl, rfl, rfl, rfl, rfl, rfl, [], by simp, by simp⟩
    · obtain ⟨g1, g2, g3, g4, g5, g6, t, g7, g8⟩ := ih _ _ _ h
      obtain ⟨w1, w2, w3, w4, w5, w6, u, w7, w8⟩ := sweepOnce_spec mk sweep b s
      refine ⟨g1.trans w1, g2.trans w2, g3.trans w3, g4.trans w4,
        g5.trans w5, g6.trans w6, u ++ t, ?_, ?_⟩
      · rw [g7, w7, List.append_assoc]
      · intro e he
        rcases List.mem_append.mp he with he | he
        · exact w8 e he
        · exact g8 e he

theorem pretrainPhase_spec (cfg : Config) (dynSweep acSweep : List ℕ) (fuel : ℕ)
    (s s' : RunState) (h : pretrainPhase cfg dynSweep acSweep fuel s = some s') :
    s'.size = s.size ∧ s'.envSteps = s.envSteps ∧ s'.counter = s.counter ∧
    s'.lastEval = s.lastEval ∧ s'.mainSteps = s.mainSteps ∧ s'.rounds = s.rounds ∧
    ∃ t1 t2 t3, s'.trace = s.trace ++ t1 ++ t2 ++ t3 ++ [Ev.sync] ∧
      (∀ e ∈ t1, ∃ n, e = Ev.obsOpt n) ∧
      (∀ e ∈ t2, ∃ n, e = Ev.dynOpt n) ∧
      (∀ e ∈ t3, ∃ n, e = Ev.acOpt n) := by
  unfold pretrainPhase at h
  cases h1 : obsGo s.size (wmTotalBatch cfg) fuel 0 (obsPretrainBudget cfg) s with
  | none => rw [h1] at h; exact absurd h (by simp)
  | some u1 =>
    rw [h1] at h
    dsimp only at h
    cases h2 : sweepLoop Ev.dynOpt dynSweep fuel (dynPretrainBudget cfg) u1 with
    | none => rw [h2] at h; exact absurd h (by simp)
    | some u2 =>
      rw [h2] at h
      dsimp only at h
      cases h3 : sweepLoop Ev.acOpt acSweep fuel (acPretrainBudget cfg) u2 with
      | none => rw [h3] at h; exact absurd h (by simp)
      | some u3 =>
        rw [h3] at h
        dsimp only at h
        obtain rfl := Option.some_inj.mp h
        obtain ⟨a1, a2, a3, a4, a5, a6, t1, a7, a8⟩ := obsGo_spec _ _ _ _ _ _ _ h1
        obtain ⟨b1, b2, b3, b4, b5, b6, t2, b7, b8⟩ := sweepLoop_spec _ _ _ _ _ _ h2
        obtain ⟨c1, c2, c3, c4, c5, c6, t3, c7, c8⟩ := sweepLoop_spec _ _ _ _ _ _ h3
        refine ⟨c1.trans (b1.trans a1), c2.trans (b2.trans a2), c3.trans (b3.trans a3),
          c4.trans (b4.trans a4), c5.trans (b5.trans a5), c6.trans (b6.trans a6),
          t1, t2, t3, ?_, a8, b8, c8⟩
        show u3.trace ++ [Ev.sync] = _
        rw [c7, b7, a7]

theorem trainGo_trace (te : ℚ) (T : ℕ) : ∀ (s s' : RunState),
    trainGo te T s = some s' →
    ∃ t, s'.trace = s.trace ++ t ∧ ∀ e ∈ t, e = Ev.trainRound := by
  induction T with
  | zero =>
    intro s s' h
    unfold trainGo at h
    split_ifs at h
    obtain rfl := Option.some_inj.mp h
    exact ⟨[], by simp, by simp⟩
  | succ T ih =>
    intro s s' h
    unfold trainGo at h
    split_ifs at h with hc
    · obtain ⟨t, h1, h2⟩ := ih _ _ h
      refine ⟨Ev.trainRound :: t, ?_, ?_⟩
      · rw [h1]
        show (s.trace ++ [Ev.trainRound]) ++ t = _
        simp
      · intro e he
        rcases List.mem_cons.mp he with rfl | he
        · rfl
        · exact h2 e he
    · obtain rfl := Option.some_inj.mp h
      exact ⟨[], by simp, by simp⟩

theorem collectGo_trace (cfg : Config) (te : ℚ) (f : ℕ) : ∀ (s : RunState),
    ∃ t, (collectGo cfg te f s).trace = s.trace ++ t ∧
      ∀ e ∈ t, e = Ev.collectStep ∨ e = Ev.evalEv false := by
  induction f with
  | zero => intro s; exact ⟨[], by simp [collectGo], by simp⟩
  | succ f ih =>
    intro s
    rw [collectGo]
    split_ifs with hc he
    · obtain ⟨t, h1, h2⟩ := ih (envStepMain (evalMark false s))
      refine ⟨Ev.evalEv false :: Ev.collectStep :: t, ?_, ?_⟩
      · rw [h1]
        show (s.trace ++ [Ev.evalEv false]) ++ [Ev.collectStep] ++ t = _
        simp
      · intro e hee
        rcases List.mem_cons.mp hee with rfl | hee
        · exact Or.inr rfl
        rcases List.mem_cons.mp hee with rfl | hee
        · exact Or.inl rfl
        · exact h2 e hee
    · obtain ⟨t, h1, h2⟩ := ih (envStepMain s)
      refine ⟨Ev.collectStep :: t, ?_, ?_⟩
      · rw [h1]
        show (s.trace ++ [Ev.collectStep]) ++ t = _
        simp
      · intro e hee
        rcases List.mem_cons.mp hee with rfl | hee
        · exact Or.inl rfl
        · exact h2 e hee
    · exact ⟨[], by simp, by simp⟩

/-- Events that the main loop may append to the trace: collection steps,
non-final evaluations, training rounds, and periodic checkpoints written
under the source's trigger condition. -/
def LoopEv (cfg : Config) (e : Ev) : Prop :=
  e = Ev.collectStep ∨ e = Ev.evalEv false ∨ e = Ev.trainRound ∨
    ∃ sz le, e = Ev.saveEv "agent.pt" sz le ∧ cfg.save = true ∧
      cfg.save_every ≤ (sz : Int) - (le : Int) ∧ sz < cfg.capacity

theorem evalMaybe_spec (cfg : Config) (s : RunState) :
    (evalMaybe cfg s).size = s.size ∧ (evalMaybe cfg s).envSteps = s.envSteps ∧
    (evalMaybe cfg s).counter = s.counter ∧ (evalMaybe cfg s).mainSteps = s.mainSteps ∧
    (evalMaybe cfg s).rounds = s.rounds ∧
    ∃ t, (evalMaybe cfg s).trace = s.trace ++ t ∧ ∀ e ∈ t, e = Ev.evalEv false := by
  unfold evalMaybe
  split_ifs
  · exact ⟨rfl, rfl, rfl, rfl, rfl, [Ev.evalEv false], rfl, by simp⟩
  · exact ⟨rfl, rfl, rfl, rfl, rfl, [], by simp, by simp⟩

theorem saveMaybe_spec (cfg : Config) (s : RunState) :
    (saveMaybe cfg s).size = s.size ∧ (saveMaybe cfg s).envSteps = s.envSteps ∧
    (saveMaybe cfg s).counter = s.counter ∧ (saveMaybe cfg s).mainSteps = s.mainSteps ∧
    (saveMaybe cfg s).rounds = s.rounds ∧ (saveMaybe cfg s).lastEval = s.lastEval ∧
    ∃ t, (saveMaybe cfg s).trace = s.trace ++ t ∧ ∀ e ∈ t, LoopEv cfg e := by
  unfold saveMaybe
  split_ifs with hc
  · refine ⟨rfl, rfl, rfl, rfl, rfl, rfl, [Ev.saveEv "agent.pt" s.size s.lastEval], rfl, ?_⟩
    intro e he
    rw [List.mem_singleton.mp he]
    exact Or.inr (Or.inr (Or.inr ⟨s.size, s.lastEval, rfl, hc.1, hc.2.1, hc.2.2⟩))
  · exact ⟨rfl, rfl, rfl, rfl, rfl, rfl, [], by simp, by simp⟩

theorem outerGo_trace (cfg : Config) (te : ℚ) (T : ℕ) (F : ℕ) :
    ∀ (s s' : RunState), outerGo cfg te T F s = some s' →
    ∃ t, s'.trace = s.trace ++ t ∧ ∀ e ∈ t, LoopEv cfg e := by
  induction F with
  | zero =>
    intro s s' h
    rw [outerGo] at h
    split_ifs at h
    obtain rfl := Option.some_inj.mp h
    exact ⟨[], by simp, by simp⟩
  | succ F ih =>
    intro s s' h
    rw [outerGo] at h
    split_ifs at h with hsz
    · cases htr : trainGo te T (collectPhase cfg te s) with
      | none => rw [htr] at h; exact absurd h (by simp)
      | some s2 =>
        rw [htr] at h
        dsimp only at h
        obtain ⟨t4, g1, g2⟩ := ih _ _ h
        obtain ⟨t1, a1, a2⟩ := collectGo_trace cfg te (cfg.capacity - s.size) s
        obtain ⟨t2, b1, b2⟩ := trainGo_trace te T _ _ htr
        obtain ⟨-, -, -, -, -, t3e, c1, c2⟩ := evalMaybe_spec cfg s2
        obtain ⟨-, -, -, -, -, -, t3s, d1, d2⟩ := saveMaybe_spec cfg (evalMaybe cfg s2)
        refine ⟨t1 ++ t2 ++ t3e ++ t3s ++ t4, ?_, ?_⟩
        · rw [g1, d1, c1, b1]
          unfold collectPhase
          rw [a1]
          simp [List.append_assoc]
        · intro e he
          simp only [List.mem_append] at he
          rcases he with ⟨⟨⟨he | he⟩ | he⟩ | he⟩ | he
          · rcases a2 e he with h' | h'
            · exact Or.inl h'
            · exact Or.inr (Or.inl h')
          · exact Or.inr (Or.inr (Or.inl (b2 e he)))
          · exact Or.inr (Or.inl (c2 e he))
          · exact d2 e he
          · exact g2 e he
    · obtain rfl := Option.some_inj.mp h
      exact ⟨[], by simp, by simp⟩

/-! ## Environment-step counting invariant -/

theorem countP_eq_zero_of_kinds (t : List Ev) (h : ∀ e ∈ t, Ev.isStep e = false) :
    t.countP Ev.isStep = 0 :=
  List.countP_eq_zero.mpr (by intro e he; simp [h e he])

theorem collectGo_stepInv (cfg : Config) (te : ℚ) (f : ℕ) : ∀ s : RunState,
    s.trace.countP Ev.isStep = s.envSteps →
    (collectGo cfg te f s).trace.countP Ev.isStep = (collectGo cfg te f s).envSteps := by
  induction f with
  | zero => intro s h; simpa [collectGo] using h
  | succ f ih =>
    intro s h
    rw [collectGo]
    split_ifs with hc he
    · refine ih _ ?_
      show ((s.trace ++ [Ev.evalEv false]) ++ [Ev.collectStep]).countP Ev.isStep
        = s.envSteps + 1
      simp [List.countP_append, List.countP_cons, Ev.isStep, h]
    · refine ih _ ?_
      show (s.trace ++ [Ev.collectStep]).countP Ev.isStep = s.envSteps + 1
      simp [List.countP_append, List.countP_cons, Ev.isStep, h]
    · exact h

theorem trainGo_stepInv (te : ℚ) (T : ℕ) (s s' : RunState)
    (h : trainGo te T s = some s') (hs : s.trace.countP Ev.isStep = s.envSteps) :
    s'.trace.countP Ev.isStep = s'.envSteps := by
  obtain ⟨t, h1, h2⟩ := trainGo_trace te T s s' h
  obtain ⟨-, -, -, -, -, he, -⟩ := trainGo_delta te T s s' h
  rw [h1, List.countP_append, he,
    countP_eq_zero_of_kinds t (fun e hee => by rw [h2 e hee]; rfl)]
  simpa using hs

theorem evalMaybe_stepInv (cfg : Config) (s : RunState)
    (h : s.trace.countP Ev.isStep = s.envSteps) :
    (evalMaybe cfg s).trace.countP Ev.isStep = (evalMaybe cfg s).envSteps := by
  unfold evalMaybe
  split_ifs
  · show (s.trace ++ [Ev.evalEv false]).countP Ev.isStep = s.envSteps
    simp [List.countP_append, List.countP_cons, Ev.isStep, h]
  · exact h

theorem saveMaybe_stepInv (cfg : Config) (s : RunState)
    (h : s.trace.countP Ev.isStep = s.envSteps) :
    (saveMaybe cfg s).trace.countP Ev.isStep = (saveMaybe cfg s).envSteps := by
  unfold saveMaybe
  split_ifs
  · show (s.trace ++ [Ev.saveEv "agent.pt" s.size s.lastEval]).countP Ev.isStep
      = s.envSteps
    simp [List.countP_append, List.countP_cons, Ev.isStep, h]
  · exact h

theorem outerGo_stepInv (cfg : Config) (te : ℚ) (T F : ℕ) : ∀ s s' : RunState,
    outerGo cfg te T F s = some s' → s.trace.countP Ev.isStep = s.envSteps →
    s'.trace.countP Ev.isStep = s'.envSteps := by
  induction F with
  | zero =>
    intro s s' h hs
    rw [outerGo] at h
    split_ifs at h
    obtain rfl := Option.some_inj.mp h
    exact hs
  | succ F ih =>
    intro s s' h hs
    rw [outerGo] at h
    split_ifs at h with hsz
    · cases htr : trainGo te T (collectPhase cfg te s) with
      | none => rw [htr] at h; exact absurd h (by simp)
      | some s2 =>
        rw [htr] at h
        dsimp only at h
        refine ih _ _ h ?_
        exact saveMaybe_stepInv cfg _ (evalMaybe_stepInv cfg _
          (trainGo_stepInv te T _ _ htr (collectGo_stepInv cfg te _ s hs)))
    · obtain rfl := Option.some_inj.mp h
      exact hs

theorem outerGo_sizeEnv (cfg : Config) (te : ℚ) (T F : ℕ) : ∀ s s' : RunState,
    outerGo cfg te T F s = some s' → s.size = s.envSteps → s'.size = s'.envSteps := by
  induction F with
  | zero =>
    intro s s' h hs
    rw [outerGo] at h
    split_ifs at h
    obtain rfl := Option.some_inj.mp h
    exact hs
  | succ F ih =>
    intro s s' h hs
    rw [outerGo] at h
    split_ifs at h with hsz
    · cases htr : trainGo te T (collectPhase cfg te s) with
      | none => rw [htr] at h; exact absurd h (by simp)
      | some s2 =>
        rw [htr] at h
        dsimp only at h
        refine ih _ _ h ?_
        obtain ⟨k, -, -, c3, c4, -⟩ := collectGo_delta cfg te (cfg.capacity - s.size) s
        obtain ⟨-, -, -, -, t4, t5, -⟩ := trainGo_delta te T _ _ htr
        obtain ⟨e1, e2, -, -, -, -⟩ := evalMaybe_spec cfg s2
        obtain ⟨f1, f2, -, -, -, -, -⟩ := saveMaybe_spec cfg (evalMaybe cfg s2)
        rw [f1, f2, e1, e2, t4, t5]
        unfold collectPhase
        rw [c3, c4, hs]
    · obtain rfl := Option.some_inj.mp h
      exact hs

/-! ## Decomposition of a finished run -/

theorem runModel_finished (cfg : Config) (dynS acS : List ℕ) (pfuel T F : ℕ)
    (s : RunState) (h : runModel cfg dynS acS pfuel T F = .finished s) :
    ∃ s2 s4,
      pretrainPhase cfg dynS acS pfuel (prefillPhase cfg initState) = some s2 ∧
      preLoopCheck cfg = .ok (numBatches cfg, trainEvery cfg) ∧
      outerGo cfg (trainEvery cfg) T F { evalMark false s2 with counter := 0 } = some s4 ∧
      s = (if cfg.save then saveCkpt "agent_final.pt" (evalMark true s4)
           else evalMark true s4) := by
  unfold runModel at h
  cases hp : pretrainPhase cfg dynS acS pfuel (prefillPhase cfg initState) with
  | none => rw [hp] at h; exact absurd h (by simp)
  | some s2 =>
    rw [hp] at h
    dsimp only at h
    cases hc : preLoopCheck cfg with
    | error m => rw [hc] at h; exact absurd h (by simp)
    | ok q =>
      have hq : q = (numBatches cfg, trainEvery cfg) := by
        unfold preLoopCheck at hc
        split_ifs at hc
        exact (Except.ok.injEq _ _).mp hc.symm
      subst hq
      rw [hc] at h
      dsimp only at h
      cases ho : outerGo cfg (trainEvery cfg) T F { evalMark false s2 with counter := 0 } with
      | none => rw [ho] at h; exact absurd h (by simp)
      | some s4 =>
        rw [ho] at h
        dsimp only at h
        exact ⟨s2, s4, rfl, rfl, ho, ((RunOut.finished.injEq _ _).mp h).symm⟩

theorem runModel_eq_finished (cfg : Config) (dynS acS : List ℕ) (pfuel T F : ℕ)
    (s2 s4 : RunState)
    (hp : pretrainPhase cfg dynS acS pfuel (prefillPhase cfg initState) = some s2)
    (hc : preLoopCheck cfg = .ok (numBatches cfg, trainEvery cfg))
    (ho : outerGo cfg (trainEvery cfg) T F { evalMark false s2 with counter := 0 } = some s4) :
    runModel cfg dynS acS pfuel T F = .finished
      (if cfg.save then saveCkpt "agent_final.pt" (evalMark true s4)
       else evalMark true s4) := by
  unfold runModel
  rw [hp]
  dsimp only
  rw [hc]
  dsimp only
  rw [ho]

/-! ## C7: sync_target exactly once, after actor-critic pretraining -/

/-- C7: every completed execution calls `ac.sync_target()` exactly once; the
call comes after every actor-critic pretraining optimize call and before any
main-loop collection step or training round. -/
theorem c7_sync_target_once (cfg : Config) (dynS acS : List ℕ) (pfuel T F : ℕ)
    (s : RunState) (h : runModel cfg dynS acS pfuel T F = .finished s) :
    ∃ a b, s.trace = a ++ Ev.sync :: b ∧ Ev.sync ∉ a ∧ Ev.sync ∉ b ∧
      (∀ e ∈ a, e ≠ Ev.collectStep ∧ e ≠ Ev.trainRound) ∧
      (∀ e ∈ b, ∀ n, e ≠ Ev.acOpt n) := by
  obtain ⟨s2, s4, hp, hc, ho, rfl⟩ := runModel_finished cfg dynS acS pfuel T F s h
  obtain ⟨tP, hP1, hP2⟩ := prefillGo_trace (prefillNat cfg) initState
  obtain ⟨-, -, -, -, -, -, t1, t2, t3, hQ1, hQ2, hQ3, hQ4⟩ :=
    pretrainPhase_spec cfg dynS acS pfuel _ _ hp
  obtain ⟨tL, hL1, hL2⟩ := outerGo_trace cfg (trainEvery cfg) T F _ _ ho
  have ePre : (prefillPhase cfg initState).trace = tP := by
    unfold prefillPhase
    rw [hP1]
    simp [initState]
  have e2 : s2.trace = tP ++ t1 ++ t2 ++ t3 ++ [Ev.sync] := by rw [hQ1, ePre]
  have e4 : s4.trace = (s2.trace ++ [Ev.evalEv false]) ++ tL := hL1
  have key : ∀ tail : List Ev, (∀ e ∈ tail, ∃ sz le, e = Ev.saveEv "agent_final.pt" sz le) →
      ∃ a b, ((s4.trace ++ [Ev.evalEv true]) ++ tail) = a ++ Ev.sync :: b ∧
        Ev.sync ∉ a ∧ Ev.sync ∉ b ∧
        (∀ e ∈ a, e ≠ Ev.collectStep ∧ e ≠ Ev.trainRound) ∧
        (∀ e ∈ b, ∀ n, e ≠ Ev.acOpt n) := by
    intro tail htail
    refine ⟨tP ++ t1 ++ t2 ++ t3,
      Ev.evalEv false :: (tL ++ Ev.evalEv true :: tail), ?_, ?_, ?_, ?_, ?_⟩
    · rw [e4, e2]
      simp [List.append_assoc]
    · intro hmem
      simp only [List.append_assoc, List.mem_append] at hmem
      rcases hmem with hm | hm | hm | hm
      · rcases hP2 _ hm with h' | ⟨m, h'⟩ <;> simp at h'
      · obtain ⟨n, h'⟩ := hQ2 _ hm; simp at h'
      · obtain ⟨n, h'⟩ := hQ3 _ hm; simp at h'
      · obtain ⟨n, h'⟩ := hQ4 _ hm; simp at h'
    · intro hmem
      rcases List.mem_cons.mp hmem with h' | hmem
      · simp at h'
      rcases List.mem_append.mp hmem with hm | hm
      · rcases hL2 _ hm with h' | h' | h' | ⟨sz, le, h', -⟩ <;> simp at h'
      rcases List.mem_cons.mp hm with h' | hm
      · simp at h'
      · obtain ⟨sz, le, h'⟩ := htail _ hm; simp at h'
    · intro e hmem
      simp only [List.append_assoc, List.mem_append] at hmem
      rcases hmem with hm | hm | hm | hm
      · rcases hP2 _ hm with h' | ⟨m, h'⟩ <;> subst h' <;> exact ⟨by simp, by simp⟩
      · obtain ⟨n, h'⟩ := hQ2 _ hm; subst h'; exact ⟨by simp, by simp⟩
      · obtain ⟨n, h'⟩ := hQ3 _ hm; subst h'; exact ⟨by simp, by simp⟩
      · obtain ⟨n, h'⟩ := hQ4 _ hm; subst h'; exact ⟨by simp, by simp⟩
    · intro e hmem n
      rcases List.mem_cons.mp hmem with h' | hmem
      · subst h'; simp
      rcases List.mem_append.mp hmem with hm | hm
      · rcases hL2 _ hm with h' | h' | h' | ⟨sz, le, h', -⟩ <;> subst h' <;> simp
      rcases List.mem_cons.mp hm with h' | hm
      · subst h'; simp
      · obtain ⟨sz, le, h'⟩ := htail _ hm; subst h'; simp
  by_cases hsave : cfg.save
  · rw [if_pos hsave]
    exact key [Ev.saveEv "agent_final.pt" (evalMark true s4).size (evalMark true s4).lastEval]
      (by intro e he; rw [List.mem_singleton.mp he]; exact ⟨_, _, rfl⟩)
  · rw [if_neg hsave]
    simpa using key [] (by simp)

/-- The final state of the complete concrete run of `cfgC8` (fuel 1/5/8):
`train_every = 2`, five training rounds, periodic checkpoints at sizes 6, 8
and 10, all written while `last_eval` is still 1. -/
def sC8 : RunState :=
  ⟨12, 12, 1, 11, 5, 12,
   [Ev.prefillStep, Ev.bufMetrics 1, Ev.sync, Ev.evalEv false,
    Ev.collectStep, Ev.collectStep, Ev.collectStep, Ev.trainRound,
    Ev.collectStep, Ev.collectStep, Ev.trainRound, Ev.saveEv "agent.pt" 6 1,
    Ev.collectStep, Ev.collectStep, Ev.trainRound, Ev.saveEv "agent.pt" 8 1,
    Ev.collectStep, Ev.collectStep, Ev.trainRound, Ev.saveEv "agent.pt" 10 1,
    Ev.collectStep, Ev.collectStep, Ev.trainRound,
    Ev.evalEv true, Ev.saveEv "agent_final.pt" 12 12]⟩

set_option maxHeartbeats 1000000 in
theorem runModel_cfgC8_eval : runModel cfgC8 [1] [1] 1 5 8 = .finished sC8 := by
  norm_num [sC8, runModel, pretrainPhase, obsGo, sweepLoop, sweepOnce, obsPretrainBudget,
    dynPretrainBudget, acPretrainBudget, wmTotalBatch, obsOptMark, syncMark, pushEv,
    prefillPhase, prefillGo, prefillNat, envStepPrefill, recordBufMetrics, initState,
    preLoopCheck, numBatches, budgetPerStep, trainEvery, evalMark,
    outerGo, collectPhase, collectGo, trainGo, evalMaybe, saveMaybe, envStepMain,
    trainRoundStep, saveCkpt, cfgC8]

/-- The state after prefill and pretraining of `cfgC8`. -/
def sC8pre : RunState := ⟨1, 0, 0, 0, 0, 1, [Ev.prefillStep, Ev.bufMetrics 1, Ev.sync]⟩

theorem pretrain_cfgC8_eval :
    pretrainPhase cfgC8 [1] [1] 1 (prefillPhase cfgC8 initState) = some sC8pre := by
  norm_num [sC8pre, pretrainPhase, obsGo, sweepLoop, sweepOnce, obsPretrainBudget,
    dynPretrainBudget, acPretrainBudget, wmTotalBatch, obsOptMark, syncMark, pushEv,
    prefillPhase, prefillGo, prefillNat, envStepPrefill, recordBufMetrics, initState,
    cfgC8]

/-- C7 witness: the complete run of `cfgC8` contains `sync` exactly once,
after pretraining and before the main loop. -/
theorem c7_sync_target_witness :
    ∃ a b, sC8.trace = a ++ Ev.sync :: b ∧ Ev.sync ∉ a ∧ Ev.sync ∉ b ∧
      (∀ e ∈ a, e ≠ Ev.collectStep ∧ e ≠ Ev.trainRound) ∧
      (∀ e ∈ b, ∀ n, e ≠ Ev.acOpt n) :=
  c7_sync_target_once cfgC8 [1] [1] 1 5 8 sC8 runModel_cfgC8_eval

/-! ## C8: checkpointing -/

/-- The sizes at which periodic checkpoints (`agent.pt`) were written, in
trace order. -/
def periodicSaveSizes (t : List Ev) : List ℕ :=
  t.filterMap fun e =>
    match e with
    | Ev.saveEv name sz _ => if name = "agent.pt" then some sz else none
    | _ => none

/-- C8 (amended): when saving is enabled, a periodic checkpoint `agent.pt`
is written at the end of an outer-loop iteration exactly under the source's
condition `size - last_eval >= save_every` (growth since the last
*evaluation*, not since the last checkpoint) with `size < capacity`; after
the loop a final checkpoint `agent_final.pt` is always written (with the
current size); with saving disabled no checkpoint is ever written.  Each
checkpoint mapping contains exactly the configuration, the model state dict
and the replay store size (by construction of `saveCkpt`). -/
theorem c8_checkpoint_amended (cfg : Config) (dynS acS : List ℕ) (pfuel T F : ℕ)
    (s : RunState) (h : runModel cfg dynS acS pfuel T F = .finished s) :
    (cfg.save = false → ∀ name sz le, Ev.saveEv name sz le ∉ s.trace) ∧
    (cfg.save = true → ∃ t, s.trace = t ++ [Ev.saveEv "agent_final.pt" s.size s.lastEval]) ∧
    (∀ sz le, Ev.saveEv "agent.pt" sz le ∈ s.trace →
      cfg.save = true ∧ cfg.save_every ≤ (sz : Int) - (le : Int) ∧ sz < cfg.capacity) := by
  obtain ⟨s2, s4, hp, hc, ho, hs⟩ := runModel_finished cfg dynS acS pfuel T F s h
  obtain ⟨tP, hP1, hP2⟩ := prefillGo_trace (prefillNat cfg) initState
  obtain ⟨-, -, -, -, -, -, t1, t2, t3, hQ1, hQ2, hQ3, hQ4⟩ :=
    pretrainPhase_spec cfg dynS acS pfuel _ _ hp
  obtain ⟨tL, hL1, hL2⟩ := outerGo_trace cfg (trainEvery cfg) T F _ _ ho
  have ePre : (prefillPhase cfg initState).trace = tP := by
    unfold prefillPhase
    rw [hP1]
    simp [initState]
  have e2 : s2.trace = tP ++ t1 ++ t2 ++ t3 ++ [Ev.sync] := by rw [hQ1, ePre]
  have e4 : s4.trace = (s2.trace ++ [Ev.evalEv false]) ++ tL := hL1
  have char : ∀ e ∈ s4.trace ++ [Ev.evalEv true], ∀ name sz le, e = Ev.saveEv name sz le →
      name = "agent.pt" ∧ cfg.save = true ∧
        cfg.save_every ≤ (sz : Int) - (le : Int) ∧ sz < cfg.capacity := by
    intro e hmem name sz le he
    subst he
    rw [e4, e2] at hmem
    simp only [List.append_assoc, List.mem_append, List.mem_cons,
      List.not_mem_nil, or_false] at hmem
    rcases hmem with hm | hm | hm | hm | hm | hm | hm | hm
    · rcases hP2 _ hm with h' | ⟨m, h'⟩ <;> simp at h'
    · obtain ⟨n, h'⟩ := hQ2 _ hm; simp at h'
    · obtain ⟨n, h'⟩ := hQ3 _ hm; simp at h'
    · obtain ⟨n, h'⟩ := hQ4 _ hm; simp at h'
    · simp at hm
    · simp at hm
    · rcases hL2 _ hm with h' | h' | h' | ⟨sz', le', h', hsv, hle, hlt⟩
      · simp at h'
      · simp at h'
      · simp at h'
      · obtain ⟨rfl, rfl, rfl⟩ : name = "agent.pt" ∧ sz = sz' ∧ le = le' := by
          have := (Ev.saveEv.injEq _ _ _ _ _ _).mp h'
          exact ⟨this.1, this.2.1, this.2.2⟩
        exact ⟨rfl, hsv, hle, hlt⟩
    · simp at hm
  cases hsv : cfg.save with
  | false =>
    rw [hsv] at hs
    simp only [Bool.false_eq_true, if_false] at hs
    subst hs
    refine ⟨fun _ name sz le hmem => ?_, fun hcontra => by simp at hcontra, ?_⟩
    · have := (char _ hmem name sz le rfl).2.1
      simp [hsv] at this
    · intro sz le hmem
      have := (char _ hmem "agent.pt" sz le rfl).2.1
      simp [hsv] at this
  | true =>
    rw [hsv] at hs
    simp only [if_true] at hs
    subst hs
    refine ⟨fun hcontra => by simp at hcontra, fun _ => ⟨(evalMark true s4).trace, rfl⟩, ?_⟩
    intro sz le hmem
    rcases List.mem_append.mp hmem with hm | hm
    · exact ⟨rfl, (char _ hm "agent.pt" sz le rfl).2.2⟩
    · have h' := List.mem_singleton.mp hm
      have := ((Ev.saveEv.injEq _ _ _ _ _ _).mp h').1
      simp at this

/-- C8 counterexample: in the complete run of `cfgC8` (saving enabled,
`save_every = 4`), the periodic checkpoints are written at sizes 6, 8 and
10: consecutive checkpoints are only 2 apart, i.e. a checkpoint is written
although the size grew by less than `save_every` since the previous
checkpoint (the source's trigger compares against `last_eval`, which stays
at 1 here, not against the last checkpoint). -/
theorem c8_save_counterexample :
    cfgC8.save = true ∧ cfgC8.save_every = 4 ∧
    runModel cfgC8 [1] [1] 1 5 8 = .finished sC8 ∧
    periodicSaveSizes sC8.trace = [6, 8, 10] ∧
    (8 : Int) - 6 < cfgC8.save_every :=
  ⟨rfl, rfl, runModel_cfgC8_eval, by decide, by decide⟩

/-- C8 witness: the amended checkpoint theorem applied to the complete run
of `cfgC8`. -/
theorem c8_checkpoint_witness :
    (cfgC8.save = false → ∀ name sz le, Ev.saveEv name sz le ∉ sC8.trace) ∧
    (cfgC8.save = true →
      ∃ t, sC8.trace = t ++ [Ev.saveEv "agent_final.pt" sC8.size sC8.lastEval]) ∧
    (∀ sz le, Ev.saveEv "agent.pt" sz le ∈ sC8.trace →
      cfgC8.save = true ∧ cfgC8.save_every ≤ (sz : Int) - (le : Int) ∧
        sz < cfgC8.capacity) :=
  c8_checkpoint_amended cfgC8 [1] [1] 1 5 8 sC8 runModel_cfgC8_eval

/-! ## C1: budget conservation — divergence and totality -/

theorem trainGo_none (te : ℚ) (hte : te ≤ 0) : ∀ (T : ℕ) (s : RunState),
    0 ≤ s.counter → trainGo te T s = none := by
  intro T
  induction T with
  | zero =>
    intro s hs
    unfold trainGo
    rw [if_pos (le_trans hte hs)]
  | succ T ih =>
    intro s hs
    unfold trainGo
    rw [if_pos (le_trans hte hs)]
    refine ih _ ?_
    show 0 ≤ s.counter - te
    linarith

theorem collectPhase_frozen (cfg : Config) (te : ℚ) (s : RunState)
    (hte : te < 0) (hc : 0 ≤ s.counter) : collectPhase cfg te s = s := by
  unfold collectPhase
  cases cfg.capacity - s.size with
  | zero => rfl
  | succ m =>
    rw [collectGo, if_neg]
    rintro ⟨h1, -⟩
    linarith

theorem outerGo_none (cfg : Config) (te : ℚ) (T F : ℕ) (s : RunState)
    (hte : te < 0) (hsz : s.size < cfg.capacity) (hc : s.counter = 0) :
    outerGo cfg te T F s = none := by
  have hcol := collectPhase_frozen cfg te s hte (by rw [hc])
  have htr : trainGo te T (collectPhase cfg te s) = none := by
    rw [hcol]
    exact trainGo_none te (le_of_lt hte) T s (by rw [hc])
  cases F with
  | zero =>
    rw [outerGo, if_pos hsz]
  | succ F =>
    rw [outerGo, if_pos hsz]
    rw [htr]

/-- The run operation never completes: every fuel assignment exhausts
(modelling source loops that do not terminate). -/
def runStalls (cfg : Config) (dynS acS : List ℕ) : Prop :=
  ∀ pfuel T F, runModel cfg dynS acS pfuel T F = .diverged

theorem cfgBadC1_stalls : runStalls cfgBadC1 [1] [1] := by
  intro pfuel T F
  unfold runModel
  cases hp : pretrainPhase cfgBadC1 [1] [1] pfuel (prefillPhase cfgBadC1 initState) with
  | none => rfl
  | some s2 =>
    dsimp only
    have hpc : preLoopCheck cfgBadC1 = .ok (numBatches cfgBadC1, trainEvery cfgBadC1) := by
      norm_num [preLoopCheck, numBatches, budgetPerStep, cfgBadC1]
    rw [hpc]
    dsimp only
    have hs2 : s2.size = 1 := by
      obtain ⟨hsize, -, -, -, -, -, -⟩ := pretrainPhase_spec cfgBadC1 [1] [1] pfuel _ _ hp
      rw [hsize]
      show (prefillPhase cfgBadC1 initState).size = 1
      have := (prefillGo_spec (prefillNat cfgBadC1) initState).1
      unfold prefillPhase
      rw [this]
      rfl
    have hout : outerGo cfgBadC1 (trainEvery cfgBadC1) T F
        { evalMark false s2 with counter := 0 } = none := by
      refine outerGo_none cfgBadC1 (trainEvery cfgBadC1) T F _ ?_ ?_ rfl
      · norm_num [trainEvery, numBatches, budgetPerStep, cfgBadC1]
      · show s2.size < cfgBadC1.capacity
        rw [hs2]
        decide
    rw [hout]

/-- C1 counterexample: under the claim's own assumptions (each buffer step
appends one transition — true by construction of the model — and
`buffer_prefill <= capacity`), the configuration `cfgBadC1`
(`budget < pretrain_budget`, hence `train_every = -1/50 < 0`) makes the
first training phase of the main loop run forever: the run never completes,
never takes `capacity` environment steps, and the final evaluation is never
reached. -/
theorem c1_budget_counterexample :
    prefillNat cfgBadC1 ≤ cfgBadC1.capacity ∧
    prefillNat cfgBadC1 < cfgBadC1.capacity ∧
    trainEvery cfgBadC1 < 0 ∧
    runStalls cfgBadC1 [1] [1] :=
  ⟨by decide, by decide,
   by norm_num [trainEvery, numBatches, budgetPerStep, cfgBadC1], cfgBadC1_stalls⟩

theorem collectGo_exit (cfg : Config) (te : ℚ) : ∀ (f : ℕ) (s : RunState),
    cfg.capacity ≤ s.size + f →
    te < (collectGo cfg te f s).counter ∨ cfg.capacity ≤ (collectGo cfg te f s).size := by
  intro f
  induction f with
  | zero =>
    intro s h
    right
    simpa [collectGo] using h
  | succ f ih =>
    intro s h
    by_cases hc : s.counter ≤ te ∧ s.size < cfg.capacity
    · rw [collectGo, if_pos hc]
      refine ih _ ?_
      have e3 : (envStepMain
          (if cfg.eval_every ≤ (s.size : Int) - (s.lastEval : Int)
           then evalMark false s else s)).size = s.size + 1 := by
        split_ifs <;> rfl
      rw [e3]
      omega
    · rw [collectGo, if_neg hc]
      by_cases h1 : s.counter ≤ te
      · have h2 : ¬ s.size < cfg.capacity := fun hlt => hc ⟨h1, hlt⟩
        right
        omega
      · exact Or.inl (lt_of_not_le h1)

theorem collectGo_counter_ub (cfg : Config) (te : ℚ) : ∀ (f : ℕ) (s : RunState),
    s.counter ≤ te + 1 → (collectGo cfg te f s).counter ≤ te + 1 := by
  intro f
  induction f with
  | zero => intro s h; simpa [collectGo] using h
  | succ f ih =>
    intro s h
    by_cases hc : s.counter ≤ te ∧ s.size < cfg.capacity
    · rw [collectGo, if_pos hc]
      refine ih _ ?_
      have e1 : (envStepMain
          (if cfg.eval_every ≤ (s.size : Int) - (s.lastEval : Int)
           then evalMark false s else s)).counter = s.counter + 1 := by
        split_ifs <;> rfl
      rw [e1]
      linarith [hc.1]
    · rw [collectGo, if_neg hc]
      exact h

theorem collectGo_size_ub (cfg : Config) (te : ℚ) : ∀ (f : ℕ) (s : RunState),
    s.size ≤ cfg.capacity → (collectGo cfg te f s).size ≤ cfg.capacity := by
  intro f
  induction f with
  | zero => intro s h; simpa [collectGo] using h
  | succ f ih =>
    intro s h
    by_cases hc : s.counter ≤ te ∧ s.size < cfg.capacity
    · rw [collectGo, if_pos hc]
      refine ih _ ?_
      have e3 : (envStepMain
          (if cfg.eval_every ≤ (s.size : Int) - (s.lastEval : Int)
           then evalMark false s else s)).size = s.size + 1 := by
        split_ifs <;> rfl
      rw [e3]
      omega
    · rw [collectGo, if_neg hc]
      exact h

theorem collectGo_progress (cfg : Config) (te : ℚ) (f : ℕ) (s : RunState)
    (hc : s.counter ≤ te) (hsz : s.size < cfg.capacity) :
    s.size < (collectGo cfg te (f + 1) s).size := by
  rw [collectGo, if_pos ⟨hc, hsz⟩]
  obtain ⟨k, -, -, h3, -, -⟩ := collectGo_delta cfg te f
    (envStepMain (if cfg.eval_every ≤ (s.size : Int) - (s.lastEval : Int)
      then evalMark false s else s))
  rw [h3]
  have e3 : (envStepMain
      (if cfg.eval_every ≤ (s.size : Int) - (s.lastEval : Int)
       then evalMark false s else s)).size = s.size + 1 := by
    split_ifs <;> rfl
  rw [e3]
  omega

theorem trainGo_total (te : ℚ) (hte : 0 < te) : ∀ (T : ℕ) (s : RunState),
    s.counter ≤ (T : ℚ) * te → ∃ s', trainGo te T s = some s' := by
  intro T
  induction T with
  | zero =>
    intro s h
    refine ⟨s, ?_⟩
    unfold trainGo
    rw [if_neg]
    push_neg
    simp only [Nat.cast_zero, zero_mul] at h
    linarith
  | succ T ih =>
    intro s h
    by_cases hc : te ≤ s.counter
    · have hstep : (trainRoundStep te s).counter ≤ (T : ℚ) * te := by
        show s.counter - te ≤ (T : ℚ) * te
        push_cast at h
        linarith
      obtain ⟨s', hs'⟩ := ih _ hstep
      refine ⟨s', ?_⟩
      unfold trainGo
      rw [if_pos hc]
      exact hs'
    · refine ⟨s, ?_⟩
      unfold trainGo
      rw [if_neg hc]

theorem outerGo_total (cfg : Config) (te : ℚ) (hte : 0 < te) (T : ℕ)
    (hT : te + 1 ≤ (T : ℚ) * te) : ∀ (k : ℕ) (s : RunState),
    cfg.capacity ≤ s.size + k → s.size ≤ cfg.capacity →
    0 ≤ s.counter → s.counter < te →
    ∃ F s', outerGo cfg te T F s = some s' ∧ s'.size = cfg.capacity := by
  intro k
  induction k with
  | zero =>
    intro s h1 h2 _ _
    refine ⟨0, s, ?_, by omega⟩
    rw [outerGo, if_neg (by omega)]
  | succ k ih =>
    intro s h1 h2 h3 h4
    by_cases hsz : s.size < cfg.capacity
    · have hub : (collectPhase cfg te s).counter ≤ te + 1 :=
        collectGo_counter_ub cfg te _ s (by linarith)
      have hnn1 : 0 ≤ (collectPhase cfg te s).counter := by
        obtain ⟨k', hk', -, -, -, -⟩ := collectGo_delta cfg te (cfg.capacity - s.size) s
        unfold collectPhase
        rw [hk']
        positivity
      obtain ⟨s2, htr⟩ := trainGo_total te hte T (collectPhase cfg te s)
        (le_trans hub hT)
      have h2lt : s2.counter < te := trainGo_exit te T _ _ htr
      have h2nn : 0 ≤ s2.counter := trainGo_nonneg te T _ _ hnn1 htr
      obtain ⟨-, -, -, -, hsz2, -, -⟩ := trainGo_delta te T _ _ htr
      have hprog : s.size < (collectPhase cfg te s).size := by
        obtain ⟨m, hm⟩ : ∃ m, cfg.capacity - s.size = m + 1 :=
          ⟨cfg.capacity - s.size - 1, by omega⟩
        unfold collectPhase
        rw [hm]
        exact collectGo_progress cfg te m s (le_of_lt h4) hsz
      have hub2 : (collectPhase cfg te s).size ≤ cfg.capacity :=
        collectGo_size_ub cfg te _ s h2
      obtain ⟨e1, -, e2, -, -, -, -⟩ := saveMaybe_spec cfg (evalMaybe cfg s2)
      obtain ⟨f1, -, f2, -, -, -⟩ := evalMaybe_spec cfg s2
      obtain ⟨F, s', hF, hsz'⟩ := ih (saveMaybe cfg (evalMaybe cfg s2))
        (by rw [e1, f1, hsz2]; omega)
        (by rw [e1, f1, hsz2]; omega)
        (by rw [e2, f2]; exact h2nn)
        (by rw [e2, f2]; exact h2lt)
      refine ⟨F + 1, s', ?_, hsz'⟩
      rw [outerGo, if_pos hsz]
      rw [htr]
      exact hF
    · refine ⟨0, s, ?_, by omega⟩
      rw [outerGo, if_neg hsz]

/-- C1 (amended): assuming each replay-buffer step appends exactly one
transition (true by construction of the model), `buffer_prefill <=
capacity`, and additionally that the budget arithmetic is non-degenerate
(`budget_per_step /= 0`, `num_batches /= 0`, and `train_every > 0` unless
`buffer_prefill = capacity`) and that the pretraining phase terminates,
the run terminates (for sufficient fuel) having taken exactly `capacity`
environment steps across prefill and the main loop; the outer loop exits
exactly at `size = capacity` and is followed by one final evaluation (and
only the final checkpoint after it). -/
theorem c1_budget_conservation_amended (cfg : Config) (dynS acS : List ℕ)
    (pfuel : ℕ) (s2 : RunState)
    (hcap : prefillNat cfg ≤ cfg.capacity)
    (hbps : budgetPerStep cfg ≠ 0)
    (hnb : numBatches cfg ≠ 0)
    (hte : 0 < trainEvery cfg ∨ prefillNat cfg = cfg.capacity)
    (hpt : pretrainPhase cfg dynS acS pfuel (prefillPhase cfg initState) = some s2) :
    ∃ T F s, runModel cfg dynS acS pfuel T F = .finished s ∧
      s.size = cfg.capacity ∧ s.envSteps = cfg.capacity ∧
      s.trace.countP Ev.isStep = cfg.capacity ∧
      ∃ t rest, s.trace = t ++ Ev.evalEv true :: rest ∧
        Ev.evalEv true ∉ t ∧
        ∀ e ∈ rest, ∃ sz le, e = Ev.saveEv "agent_final.pt" sz le := by
  have hPspec := prefillGo_spec (prefillNat cfg) initState
  have hPsize : (prefillPhase cfg initState).size = prefillNat cfg := by
    unfold prefillPhase
    rw [hPspec.1]
    simp [initState]
  have hPenv : (prefillPhase cfg initState).envSteps = prefillNat cfg := by
    unfold prefillPhase
    rw [hPspec.2.1]
    simp [initState]
  have hPcount : (prefillPhase cfg initState).trace.countP Ev.isStep = prefillNat cfg := by
    unfold prefillPhase
    rw [hPspec.2.2.1]
    simp [initState]
  obtain ⟨q1, q2, -, -, -, -, t1, t2, t3, hQ1, hQ2, hQ3, hQ4⟩ :=
    pretrainPhase_spec cfg dynS acS pfuel _ _ hpt
  obtain ⟨tP, hT1, hT2⟩ := prefillGo_trace (prefillNat cfg) initState
  have ePre : (prefillPhase cfg initState).trace = tP := by
    unfold prefillPhase
    rw [hT1]
    simp [initState]
  have hs2size : s2.size = prefillNat cfg := by rw [q1, hPsize]
  have hs2env : s2.envSteps = prefillNat cfg := by rw [q2, hPenv]
  have hz1 : t1.countP Ev.isStep = 0 :=
    countP_eq_zero_of_kinds t1 (by rintro e he; obtain ⟨n, rfl⟩ := hQ2 e he; rfl)
  have hz2 : t2.countP Ev.isStep = 0 :=
    countP_eq_zero_of_kinds t2 (by rintro e he; obtain ⟨n, rfl⟩ := hQ3 e he; rfl)
  have hz3 : t3.countP Ev.isStep = 0 :=
    countP_eq_zero_of_kinds t3 (by rintro e he; obtain ⟨n, rfl⟩ := hQ4 e he; rfl)
  have hs2count : s2.trace.countP Ev.isStep = prefillNat cfg := by
    rw [hQ1]
    simp only [List.countP_append, hPcount, hz1, hz2, hz3]
    norm_num [List.countP_cons, Ev.isStep]
  have hs0size : ({ evalMark false s2 with counter := 0 } : RunState).size
      = prefillNat cfg := hs2size
  have hs0env : ({ evalMark false s2 with counter := 0 } : RunState).envSteps
      = prefillNat cfg := hs2env
  have hs0count : ({ evalMark false s2 with counter := 0 } : RunState).trace.countP Ev.isStep
      = ({ evalMark false s2 with counter := 0 } : RunState).envSteps := by
    show (s2.trace ++ [Ev.evalEv false]).countP Ev.isStep = s2.envSteps
    rw [List.countP_append, hs2count, hs2env]
    norm_num [List.countP_cons, Ev.isStep]
  have hcheck : preLoopCheck cfg = .ok (numBatches cfg, trainEvery cfg) := by
    unfold preLoopCheck
    rw [if_neg hbps, if_neg hnb]
  obtain ⟨T, F, s4, hF, hs4size⟩ : ∃ T F s4,
      outerGo cfg (trainEvery cfg) T F { evalMark false s2 with counter := 0 } = some s4 ∧
        s4.size = cfg.capacity := by
    rcases hte with hte | hte
    · have hT : trainEvery cfg + 1 ≤
          ((⌈(trainEvery cfg + 1) / trainEvery cfg⌉₊ : ℕ) : ℚ) * trainEvery cfg := by
        have h1 : (trainEvery cfg + 1) / trainEvery cfg ≤
            ((⌈(trainEvery cfg + 1) / trainEvery cfg⌉₊ : ℕ) : ℚ) := Nat.le_ceil _
        have h2 := mul_le_mul_of_nonneg_right h1 (le_of_lt hte)
        rwa [div_mul_cancel₀ _ (ne_of_gt hte)] at h2
      obtain ⟨F, s4, hF, hs4⟩ := outerGo_total cfg (trainEvery cfg) hte _ hT
        (cfg.capacity - prefillNat cfg) { evalMark false s2 with counter := 0 }
        (by rw [hs0size]; omega) (by rw [hs0size]; exact hcap)
        (le_refl 0) hte
      exact ⟨_, F, s4, hF, hs4⟩
    · refine ⟨0, 0, { evalMark false s2 with counter := 0 }, ?_, by rw [hs0size, hte]⟩
      rw [outerGo, if_neg]
      rw [hs0size, hte]
      omega
  have hrun := runModel_eq_finished cfg dynS acS pfuel T F s2 s4 hpt hcheck hF
  have hse : s4.size = s4.envSteps :=
    outerGo_sizeEnv cfg (trainEvery cfg) T F _ s4 hF (by rw [hs0size, hs0env])
  have hs4env : s4.envSteps = cfg.capacity := by rw [← hse, hs4size]
  have hs4count : s4.trace.countP Ev.isStep = s4.envSteps :=
    outerGo_stepInv cfg (trainEvery cfg) T F _ s4 hF hs0count
  obtain ⟨tL, hL1, hL2⟩ := outerGo_trace cfg (trainEvery cfg) T F _ _ hF
  have hnotFinal : Ev.evalEv true ∉ s4.trace := by
    intro hmem
    rw [hL1] at hmem
    have e2tr : ({ evalMark false s2 with counter := 0 } : RunState).trace
        = s2.trace ++ [Ev.evalEv false] := rfl
    rw [e2tr, hQ1, ePre] at hmem
    simp only [List.append_assoc, List.mem_append, List.mem_cons,
      List.not_mem_nil, or_false] at hmem
    rcases hmem with hm | hm | hm | hm | hm | hm | hm
    · rcases hT2 _ hm with h' | ⟨m, h'⟩ <;> simp at h'
    · obtain ⟨n, h'⟩ := hQ2 _ hm; simp at h'
    · obtain ⟨n, h'⟩ := hQ3 _ hm; simp at h'
    · obtain ⟨n, h'⟩ := hQ4 _ hm; simp at h'
    · simp at hm
    · simp at hm
    · rcases hL2 _ hm with h' | h' | h' | ⟨sz, le, h', -⟩ <;> simp at h'
  refine ⟨T, F, _, hrun, ?_, ?_, ?_, ?_⟩
  · cases hsv : cfg.save <;> simp only [hsv, Bool.false_eq_true, if_false, if_true] <;>
      exact hs4size
  · cases hsv : cfg.save <;> simp only [hsv, Bool.false_eq_true, if_false, if_true] <;>
      exact hs4env
  · cases hsv : cfg.save <;> simp only [hsv, Bool.false_eq_true, if_false, if_true]
    · show (s4.trace ++ [Ev.evalEv true]).countP Ev.isStep = cfg.capacity
      rw [List.countP_append, hs4count, hs4env]
      norm_num [List.countP_cons, Ev.isStep]
    · show ((s4.trace ++ [Ev.evalEv true]) ++
          [Ev.saveEv "agent_final.pt" (evalMark true s4).size (evalMark true s4).lastEval]
          ).countP Ev.isStep = cfg.capacity
      rw [List.countP_append, List.countP_append, hs4count, hs4env]
      norm_num [List.countP_cons, Ev.isStep]
  · cases hsv : cfg.save <;> simp only [hsv, Bool.false_eq_true, if_false, if_true]
    · exact ⟨s4.trace, [], rfl, hnotFinal, by simp⟩
    · refine ⟨s4.trace,
        [Ev.saveEv "agent_final.pt" (evalMark true s4).size (evalMark true s4).lastEval],
        ?_, hnotFinal, ?_⟩
      · show (s4.trace ++ [Ev.evalEv true]) ++ _ = _
        simp
      · intro e he
        rw [List.mem_singleton.mp he]
        exact ⟨_, _, rfl⟩

/-- C1 witness: the amended budget-conservation theorem at `cfgC8`
(prefill 1, capacity 12, `train_every = 2`): the run finishes having taken
exactly 12 environment steps. -/
theorem c1_budget_conservation_witness :
    (prefillNat cfgC8 ≤ cfgC8.capacity ∧ budgetPerStep cfgC8 ≠ 0 ∧
      numBatches cfgC8 ≠ 0 ∧ 0 < trainEvery cfgC8) ∧
    (∃ T F s, runModel cfgC8 [1] [1] 1 T F = .finished s ∧
      s.size = cfgC8.capacity ∧ s.envSteps = cfgC8.capacity ∧
      s.trace.countP Ev.isStep = cfgC8.capacity ∧
      ∃ t rest, s.trace = t ++ Ev.evalEv true :: rest ∧
        Ev.evalEv true ∉ t ∧
        ∀ e ∈ rest, ∃ sz le, e = Ev.saveEv "agent_final.pt" sz le) := by
  have h1 : budgetPerStep cfgC8 ≠ 0 := by norm_num [budgetPerStep, cfgC8]
  have h2 : numBatches cfgC8 ≠ 0 := by norm_num [numBatches, budgetPerStep, cfgC8]
  have h3 : 0 < trainEvery cfgC8 := by
    norm_num [trainEvery, numBatches, budgetPerStep, cfgC8]
  exact ⟨⟨by decide, h1, h2, h3⟩,
    c1_budget_conservation_amended cfgC8 [1] [1] 1 sC8pre (by decide) h1 h2
      (Or.inl h3) pretrain_cfgC8_eval⟩

end TWM
